import Mathlib

/-!
Verification of the speech-duration estimation and caption-timing engine of the
youtube-shorts-automation repository (src/tts_generator.py, src/app.py).

Text is modelled as `List Char`; Python floats are modelled as exact rationals
(`ℚ`); Python lists of caption dicts are modelled by the `Caption` structure.
Each definition is a direct shallow embedding of the corresponding Python
function, keeping the source's branch structure (including branches that are
unreachable in the source).
-/

attribute [local semireducible] Rat.add Rat.mul Rat.sub Rat.inv Rat.ofScientific

set_option maxRecDepth 2000

namespace ShortsTTS

/-- Python whitespace for `str.strip`, `str.split` and the regex class `\s`
(ASCII part: space, tab, newline, carriage return, vertical tab, form feed). -/
def isWsB (c : Char) : Bool :=
  c = ' ' || c = '\t' || c = '\n' || c = '\r' || c = '\x0b' || c = '\x0c'

/-- Sentence-final punctuation used by `_split_into_sentences`
(the regex `(?<=[.!?])\s+`). -/
def isSentEnd (c : Char) : Bool :=
  c = '.' || c = '!' || c = '?'

/-- Primary clause delimiters of `_split_into_clauses`
(the regex class `[,;:"\x27]`). -/
def isPrimaryDelim (c : Char) : Bool :=
  c = ',' || c = ';' || c = ':' || c = '"' || c = '\x27'

/-- Python `s.strip()`: drop whitespace from both ends. -/
def strip (l : List Char) : List Char :=
  ((l.dropWhile isWsB).reverse.dropWhile isWsB).reverse

/-- Helper: whether a list starts with a whitespace character. -/
def headIsWs : List Char → Bool
  | [] => false
  | c :: _ => isWsB c

/-- Scanner for `re.split(r'(?<=[.!?])\s+', text)`: a split point is a maximal
whitespace run immediately preceded by `.`, `!` or `?`; the whitespace run is
consumed.  `skipping` is true while consuming the whitespace of a match just
found; `acc` holds the current piece reversed. -/
def splitSentGo : Bool → List Char → List Char → List (List Char)
  | _, [], acc => [acc.reverse]
  | skipping, c :: rest, acc =>
    if skipping && isWsB c then splitSentGo true rest acc
    else if isSentEnd c && headIsWs rest then
      (c :: acc).reverse :: splitSentGo true rest []
    else splitSentGo false rest (c :: acc)

/-- The pieces of `re.split(r'(?<=[.!?])\s+', text)`. -/
def splitSentRaw (text : List Char) : List (List Char) :=
  splitSentGo false text []

/-- `_split_into_sentences` (tts_generator.py, also inlined in app.py's
`estimate_speech_duration`): split on whitespace after `.!?`, strip each piece,
drop empty pieces. -/
def splitIntoSentences (text : List Char) : List (List Char) :=
  ((splitSentRaw text).map strip).filter (fun s => s ≠ [])

/-- Hangul syllable block `U+AC00 ..= U+D7A3` (the Python test
`'가' <= char <= '힣'`). -/
def isHangul (c : Char) : Bool :=
  0xAC00 ≤ c.toNat && c.toNat ≤ 0xD7A3

/-- ASCII digits (Python `char.isdigit()`, restricted to its ASCII core; the
repository only feeds it ordinary text). -/
def isAsciiDigit (c : Char) : Bool :=
  '0' ≤ c && c ≤ '9'

/-- Latin letters (the Python test `'a' <= char.lower() <= 'z'`). -/
def isLatinLetter (c : Char) : Bool :=
  ('a' ≤ c && c ≤ 'z') || ('A' ≤ c && c ≤ 'Z')

/-- Leading consonants counted as complex by `_analyze_korean_char`. -/
def complexInitials : List ℕ := [1, 4, 7, 8, 9, 10, 11, 12, 13, 14, 15, 16, 17]

/-- Vowels counted as complex by `_analyze_korean_char`. -/
def complexMedials : List ℕ := [2, 3, 6, 7, 10, 11, 12, 13, 14, 15, 16, 17, 18, 19]

/-- Trailing consonants counted as complex by `_analyze_korean_char`. -/
def complexFinals : List ℕ := [3, 5, 6, 9, 10, 11, 12, 13, 14, 15, 16, 17, 18, 19, 20]

/-- `_analyze_korean_char` (tts_generator.py): decompose a Hangul syllable and
return its complexity weight and jamo count. -/
def analyzeKoreanChar (c : Char) : ℚ × ℕ :=
  if ¬ (isHangul c = true) then (0, 1)
  else
    let code := c.toNat - 0xAC00
    let ini := code / (21 * 28)
    let med := (code % (21 * 28)) / 28
    let fin := code % 28
    let jamo : ℕ := if fin > 0 then 3 else 2
    let comp1 : ℚ := if ini ∈ complexInitials then 0.5 else 0
    let comp2 : ℚ := if med ∈ complexMedials then 0.3 else 0
    let comp3 : ℚ := if fin > 0 then (if fin ∈ complexFinals then 0.7 else 0.3) else 0
    (comp1 + comp2 + comp3, jamo)

/-- `text_without_space` of `_analyze_syllables` (only the space character is
removed, as in Python's `text.replace(" ", "")`). -/
def twsOf (text : List Char) : List Char :=
  text.filter (fun c => c ≠ ' ')

/-- `pause_time` of `_analyze_syllables` (weighted punctuation counts over the
original text). -/
def analyzerPause (text : List Char) : ℚ :=
  (text.count ',' : ℚ) * 0.1 + (text.count '.' : ℚ) * 0.15 +
  (text.count '!' : ℚ) * 0.15 + (text.count '?' : ℚ) * 0.15 +
  (text.count ';' : ℚ) * 0.1 + (text.count ':' : ℚ) * 0.1

/-- Analysis view of `pause_time`: the per-character pause weight, summing to
`analyzerPause`. -/
def pauseWeight (c : Char) : ℚ :=
  if c = ',' then 0.1 else if c = '.' then 0.15 else if c = '!' then 0.15
  else if c = '?' then 0.15 else if c = ';' then 0.1 else if c = ':' then 0.1
  else 0

/-- Per-character contribution to `complex_char_count` in `_analyze_syllables`
(the Hangul loop adds `_analyze_korean_char`'s complexity for Hangul
characters and nothing otherwise). -/
def charComplexity (c : Char) : ℚ :=
  if isHangul c then (analyzeKoreanChar c).1 else 0

/-- `duration` of `_analyze_syllables` after the complexity factor, pause
times, and the digit and Latin-letter adjustments (just before the space
factor). -/
def analyzerD3 (text : List Char) : ℚ :=
  (((twsOf text).length : ℚ) / 6.5) *
      (1 + ((twsOf text).map charComplexity).sum /
        ((max 1 (twsOf text).length : ℕ) : ℚ) * 0.15) +
    analyzerPause text +
    ((twsOf text).countP isAsciiDigit : ℚ) / ((max 1 (twsOf text).length : ℕ) : ℚ) *
      (((twsOf text).length : ℚ) / 6.5) * 0.15 +
    ((twsOf text).countP isLatinLetter : ℚ) / ((max 1 (twsOf text).length : ℕ) : ℚ) *
      (((twsOf text).length : ℚ) / 6.5) * 0.1

/-- `space_factor` of `_analyze_syllables`. -/
def spaceFactor (text : List Char) : ℚ :=
  min 0.95 (0.98 - (text.count ' ' : ℚ) / ((max 1 text.length : ℕ) : ℚ) * 0.02)

/-- `duration` after the space factor. -/
def analyzerD4 (text : List Char) : ℚ :=
  if text.count ' ' > 0 then analyzerD3 text * spaceFactor text
  else analyzerD3 text

/-- `duration` after the tier chain.  The `if n > 10 / elif n > 20 /
elif n > 30` chain is kept exactly as in the source (the second and third
branches are unreachable there). -/
def analyzerD5 (text : List Char) : ℚ :=
  if (twsOf text).length > 10 then analyzerD4 text * 0.85
  else if (twsOf text).length > 20 then analyzerD4 text * 0.8
  else if (twsOf text).length > 30 then analyzerD4 text * 0.75
  else analyzerD4 text

/-- `duration` after the long-clause ceiling clamp. -/
def analyzerD6 (text : List Char) : ℚ :=
  if analyzerD5 text > 3 ∧ (twsOf text).length > 15 then
    min (analyzerD5 text) (3 + (((twsOf text).length : ℚ) - 15) * 0.1)
  else analyzerD5 text

/-- `_analyze_syllables` (tts_generator.py): syllable-based estimate of the
spoken duration of one clause, in seconds, staged through the named steps
above. -/
def analyzeSyllables (text : List Char) : ℚ :=
  if text = [] ∨ strip text = [] then 0.8
  else max 0.7 (analyzerD6 text)

/-- Per-sentence body of app.py's `estimate_speech_duration` (the simplified
duration analyzer: trailing-consonant-only complexity, no ceiling clamp). -/
def appSentenceDuration (sentence : List Char) : ℚ :=
  let tws := sentence.filter (fun c => c ≠ ' ')
  let n := tws.length
  let m : ℚ := (max 1 n : ℕ)
  let pauseTime : ℚ :=
    (sentence.count ',' : ℚ) * 0.1 + (sentence.count '.' : ℚ) * 0.15 +
    (sentence.count '!' : ℚ) * 0.15 + (sentence.count '?' : ℚ) * 0.15 +
    (sentence.count ';' : ℚ) * 0.1 + (sentence.count ':' : ℚ) * 0.1
  let complexCharCount : ℚ :=
    (tws.map (fun c =>
      if isHangul c && (c.toNat - 0xAC00) % 28 > 0 then (0.3 : ℚ) else 0)).sum
  let numbers : ℕ := tws.countP isAsciiDigit
  let englishChars : ℕ := tws.countP isLatinLetter
  let baseDuration : ℚ := (n : ℚ) / 6.5
  let complexityFactor : ℚ := 1 + complexCharCount / m * 0.15
  let d1 : ℚ := baseDuration * complexityFactor + pauseTime
  let d2 : ℚ := d1 + (numbers : ℚ) / m * baseDuration * 0.15
  let d3 : ℚ := d2 + (englishChars : ℚ) / m * baseDuration * 0.1
  let spaces := sentence.count ' '
  let d4 : ℚ :=
    if spaces > 0 then
      d3 * min 0.95 (0.98 - (spaces : ℚ) / ((max 1 sentence.length : ℕ) : ℚ) * 0.02)
    else d3
  let d5 : ℚ :=
    if n > 10 then d4 * 0.85
    else if n > 20 then d4 * 0.8
    else if n > 30 then d4 * 0.75
    else d4
  max 0.7 d5

/-- `estimate_speech_duration` (app.py): 0 for empty or whitespace-only text,
otherwise the sum of per-sentence estimates over the sentence split. -/
def estimateSpeechDuration (text : List Char) : ℚ :=
  if text = [] ∨ strip text = [] then 0
  else ((splitIntoSentences text).map appSentenceDuration).sum

/-- Word accumulator for Python `text.split()`; `cur` holds the current word
reversed. -/
def wordsGo : List Char → List Char → List (List Char)
  | [], cur => if cur = [] then [] else [cur.reverse]
  | c :: rest, cur =>
    if isWsB c then
      if cur = [] then wordsGo rest [] else cur.reverse :: wordsGo rest []
    else wordsGo rest (c :: cur)

/-- Python `text.split()`: maximal runs of non-whitespace characters. -/
def words (l : List Char) : List (List Char) :=
  wordsGo l []

/-- `re.search(pat, word)` for the source's anchored alternation patterns:
the word ends with the given suffix. -/
def endsWith (w : List Char) (s : String) : Bool :=
  s.toList.isSuffixOf w

/-- The case/topic/object/location particle patterns of
`_split_by_korean_particles`. -/
def particleCheck (w : List Char) : Bool :=
  endsWith w "이" || endsWith w "가" ||
  endsWith w "은" || endsWith w "는" ||
  endsWith w "을" || endsWith w "를" ||
  endsWith w "에서" || endsWith w "에" || endsWith w "께" ||
  endsWith w "한테" || endsWith w "에게"

/-- The connective-ending pattern `(고|며|서|되|자|면|니까|지만)$`. -/
def connectiveCheck (w : List Char) : Bool :=
  endsWith w "고" || endsWith w "며" || endsWith w "서" || endsWith w "되" ||
  endsWith w "자" || endsWith w "면" || endsWith w "니까" || endsWith w "지만"

/-- The quotative pattern `(라고|하고|하며|하자|하면)$`. -/
def quoteCheck (w : List Char) : Bool :=
  endsWith w "라고" || endsWith w "하고" || endsWith w "하며" ||
  endsWith w "하자" || endsWith w "하면"

/-- The split decision of `_split_by_korean_particles` for one word.  The
`if/elif` chain is kept exactly as in the source: the connective and
quotative branches repeat the particle branch's condition `word_count >= 2
and i < len(words) - 1`, so they are unreachable there. -/
def shouldSplitWord (w : List Char) (wc2 : ℕ) (isFinalWord : Bool) : Bool :=
  if wc2 ≥ 3 then true
  else if wc2 ≥ 2 && !isFinalWord then particleCheck w
  else if wc2 ≥ 2 && !isFinalWord then connectiveCheck w
  else if wc2 ≥ 2 && !isFinalWord then quoteCheck w
  else false

/-- The word loop of `_split_by_korean_particles`. -/
def koreanLoop : List (List Char) → List Char → ℕ → List (List Char)
  | [], cur, _ => if cur = [] then [] else [cur]
  | w :: rest, cur, wc =>
    let cur2 := if cur = [] then w else cur ++ ' ' :: w
    if shouldSplitWord w (wc + 1) rest.isEmpty then cur2 :: koreanLoop rest [] 0
    else koreanLoop rest cur2 (wc + 1)

/-- `_split_by_korean_particles` (tts_generator.py). -/
def splitByKoreanParticles (text : List Char) : List (List Char) :=
  let wds := words text
  if wds.length ≤ 3 then [text]
  else
    let fr := koreanLoop wds [] 0
    if fr = [] then [text] else fr

/-- First pass of `_split_into_clauses`: `re.split('(?<=[,;:"\x27])', s)`,
cutting after every primary delimiter and keeping it attached. -/
def splitPrimaryRaw : List Char → List Char → List (List Char)
  | [], acc => [acc.reverse]
  | c :: rest, acc =>
    if isPrimaryDelim c then (c :: acc).reverse :: splitPrimaryRaw rest []
    else splitPrimaryRaw rest (c :: acc)

/-- Final pass of `_split_into_clauses`: greedily recombine adjacent fragments
while the joined length stays at most 25. -/
def recombine : List (List Char) → List Char → List (List Char)
  | [], cur => if cur = [] then [] else [cur]
  | cl :: rest, cur =>
    if cur = [] then recombine rest cl
    else
      let comb := cur ++ ' ' :: cl
      if comb.length > 25 then cur :: recombine rest cl
      else recombine rest comb

/-- Per-fragment step of `_split_into_clauses`'s first loop: strip, drop if
empty, keep short fragments, send long ones to the Korean-aware splitter. -/
def clauseFragments (p : List Char) : List (List Char) :=
  if strip p = [] then []
  else if (strip p).length ≤ 20 then [strip p]
  else splitByKoreanParticles (strip p)

/-- `_split_into_clauses` (tts_generator.py).  The per-fragment loop appending
either the fragment or its Korean-aware split is written as a `flatMap`. -/
def splitIntoClauses (sentence : List Char) : List (List Char) :=
  if sentence.length ≤ 10 then [sentence]
  else
    let temp := (splitPrimaryRaw sentence []).flatMap clauseFragments
    let cls := recombine temp []
    let cls2 := cls.filter (fun c => strip c ≠ [])
    if cls2 = [] then [sentence] else cls2

/-- One caption record `{text, start_time, end_time}`. -/
structure Caption where
  text : List Char
  start_time : ℚ
  end_time : ℚ
deriving DecidableEq, Repr

/-- The caption-emitting loop of `_estimate_timestamps`: one running clock
threads through all clauses (the source's nested sentence/clause loops update
a single `current_time`, so they are the flattened clause loop below). -/
def emitClauses : List (List Char) → ℚ → List Caption
  | [], _ => []
  | cl :: rest, t =>
    let d := analyzeSyllables cl
    ⟨cl, t, t + d⟩ :: emitClauses rest (t + d)

/-- `_estimate_timestamps` (tts_generator.py). -/
def estimateTimestamps (sentences : List (List Char)) : List Caption :=
  emitClauses (sentences.flatMap splitIntoClauses) 0

/-- The estimate-based timeline of `get_tts_with_timestamps`:
`_estimate_timestamps(_split_into_sentences(text))`. -/
def buildTimeline (script : List Char) : List Caption :=
  estimateTimestamps (splitIntoSentences script)

/-- `_adjust_timestamps_based_on_actual_duration` (tts_generator.py), with the
measured audio length passed as `actualDuration`.  When the estimated duration
is 0 the source's `ratio = actual / estimated` raises `ZeroDivisionError`,
which the surrounding `except` swallows, returning the original list; that
path is the `est = 0` branch below. -/
def adjustTimestamps (subtitles : List Caption) (actualDuration : ℚ) : List Caption :=
  if h : subtitles = [] then subtitles
  else
    let est := (subtitles.getLast h).end_time
    if |actualDuration - est| < 0.5 then subtitles
    else if est = 0 then subtitles
    else
      let r := actualDuration / est
      subtitles.map (fun s => { s with start_time := s.start_time * r, end_time := s.end_time * r })

/-- `_estimate_total_duration` (tts_generator.py): sum of per-sentence clause
analyzer estimates, sentences not clause-split. -/
def estimateTotalDuration (text : List Char) : ℚ :=
  ((splitIntoSentences text).map analyzeSyllables).sum

/-- The trimmer's density key: `len(x[0].split()) / max(x[1], 0.5)`. -/
def sentenceDensity (p : List Char × ℚ) : ℚ :=
  ((words p.1).length : ℚ) / max p.2 0.5

/-- Stable descending insertion for `sortDescBy`. -/
def insertDescBy (key : α → ℚ) (a : α) : List α → List α
  | [] => [a]
  | b :: rest =>
    if key b ≤ key a then a :: b :: rest
    else b :: insertDescBy key a rest

/-- Stable sort, descending by `key` — the semantics of Python's
`list.sort(key=key, reverse=True)` (stable; ties keep original order). -/
def sortDescBy (key : α → ℚ) : List α → List α
  | [] => []
  | a :: rest => insertDescBy key a (sortDescBy key rest)

/-- The middle-sentence selection loop of `trim_script_to_duration`. -/
def greedyAdd : List (List Char × ℚ) → ℚ → ℚ → List (List Char) → List (List Char)
  | [], _, _, selected => selected
  | (s, d) :: rest, reserved, target, selected =>
    if reserved + d ≤ target then greedyAdd rest (reserved + d) target (selected ++ [s])
    else greedyAdd rest reserved target selected

/-- `sentence_durations` of `trim_script_to_duration`: each sentence paired
with its estimate. -/
def sentenceData (text : List Char) : List (List Char × ℚ) :=
  (splitIntoSentences text).map (fun s => (s, analyzeSyllables s))

/-- `last_sentence`: the last pair when there are at least two sentences. -/
def trimLast (sds : List (List Char × ℚ)) : Option (List Char × ℚ) :=
  if 1 < sds.length then sds.getLast? else none

/-- `middle_sentences` before sorting: `sds[1:-1]` when there are more than
two sentences. -/
def trimMiddle (sds : List (List Char × ℚ)) : List (List Char × ℚ) :=
  if 2 < sds.length then (sds.drop 1).dropLast else []

/-- `selected_sentences` seeded with the first sentence, and
`current_duration` after that seed. -/
def trimStartSel (sds : List (List Char × ℚ)) : List (List Char) × ℚ :=
  match sds.head? with
  | some f => ([f.1], f.2)
  | none => ([], 0)

/-- `last_sentence_duration`. -/
def trimLastDur (sds : List (List Char × ℚ)) : ℚ :=
  match trimLast sds with
  | some l2 => l2.2
  | none => 0

/-- `selected_sentences` after the greedy middle loop. -/
def trimRes (sds : List (List Char × ℚ)) (maxDuration : ℚ) : List (List Char) :=
  greedyAdd (sortDescBy sentenceDensity (trimMiddle sds))
    ((trimStartSel sds).2 + trimLastDur sds) (maxDuration * 0.95) (trimStartSel sds).1

/-- `selected_sentences` after the final last-sentence append. -/
def trimSelectedAll (sds : List (List Char × ℚ)) (maxDuration : ℚ) : List (List Char) :=
  match trimLast sds with
  | some l2 =>
    if l2.1 ∈ trimRes sds maxDuration then trimRes sds maxDuration
    else trimRes sds maxDuration ++ [l2.1]
  | none => trimRes sds maxDuration

/-- The sentence list retained by `trim_script_to_duration` when trimming is
triggered (`final_sentences` in the source). -/
def trimKept (text : List Char) (maxDuration : ℚ) : List (List Char) :=
  (splitIntoSentences text).filter
    (fun s => decide (s ∈ trimSelectedAll (sentenceData text) maxDuration))

/-- `trim_script_to_duration` (tts_generator.py): return the script unchanged
when its estimate fits, else rejoin the retained sentences with spaces. -/
def trimScriptToDuration (text : List Char) (maxDuration : ℚ) : List Char :=
  if estimateTotalDuration text ≤ maxDuration then text
  else List.intercalate [' '] (trimKept text maxDuration)

/-! ### Basic whitespace and `strip` lemmas -/

/-- The non-whitespace content of a string; two texts agree "ignoring
whitespace differences" when their `nws` images agree. -/
def nws (l : List Char) : List Char :=
  l.filter (fun c => !isWsB c)

/-- The concatenated non-whitespace content of a list of fragments. -/
def nwsJoin (ls : List (List Char)) : List Char :=
  (ls.map nws).flatten

/-- Adjacent-pair shape of a fragment that the sentence scanner never cuts:
no sentence-final punctuation directly followed by whitespace. -/
def OkP (a b : Char) : Prop :=
  isSentEnd a = true → isWsB b = false

/-- The fragment ends with sentence-final punctuation. -/
def EndsPunct (l : List Char) : Prop :=
  ∃ a, l.getLast? = some a ∧ isSentEnd a = true

theorem sentEnd_not_ws {c : Char} (h : isSentEnd c = true) : isWsB c = false := by
  rcases (by simpa [isSentEnd] using h : (c = '.' ∨ c = '!') ∨ c = '?') with (h1 | h1) | h1 <;>
    subst h1 <;> decide

theorem nws_nil_iff {l : List Char} : nws l = [] ↔ ∀ c ∈ l, isWsB c = true := by
  simp [nws, List.filter_eq_nil_iff]

theorem nws_dropWhile (l : List Char) : nws (l.dropWhile isWsB) = nws l := by
  have h : nws (l.takeWhile isWsB) = [] :=
    nws_nil_iff.2 (fun c hc => List.mem_takeWhile_imp hc)
  conv_rhs => rw [← List.takeWhile_append_dropWhile isWsB l]
  simp only [nws, List.filter_append] at h ⊢
  rw [h, List.nil_append]

theorem nws_reverse (l : List Char) : nws l.reverse = (nws l).reverse :=
  List.filter_reverse _ _

theorem nws_strip (l : List Char) : nws (strip l) = nws l := by
  unfold strip
  rw [nws_reverse, nws_dropWhile, nws_reverse, nws_dropWhile, List.reverse_reverse]

theorem strip_nil_iff {l : List Char} : strip l = [] ↔ ∀ c ∈ l, isWsB c = true := by
  unfold strip
  rw [List.reverse_eq_nil_iff, List.dropWhile_eq_nil_iff]
  constructor
  · intro h c hc
    have hmem : c ∈ List.takeWhile isWsB l ++ List.dropWhile isWsB l := by
      rw [List.takeWhile_append_dropWhile]; exact hc
    rcases List.mem_append.1 hmem with hm | hm
    · exact List.mem_takeWhile_imp hm
    · exact h c (List.mem_reverse.2 hm)
  · intro h c hc
    exact h c ((List.dropWhile_suffix isWsB).subset (List.mem_reverse.1 hc))

theorem strip_head?_not_ws {l : List Char} {a : Char}
    (h : (strip l).head? = some a) : isWsB a = false := by
  unfold strip at h
  rw [List.head?_reverse] at h
  obtain ⟨t, ht⟩ := List.dropWhile_suffix (l := (l.dropWhile isWsB).reverse) isWsB
  have hgl : ((l.dropWhile isWsB).reverse).getLast? = some a := by
    rw [← ht, List.getLast?_append, h]; rfl
  rw [List.getLast?_reverse] at hgl
  have hq : l.dropWhile isWsB ≠ [] := by
    intro h0; rw [h0] at hgl; simp at hgl
  have h2 := List.head?_eq_head hq
  rw [hgl] at h2
  have h3 := List.head_dropWhile_not isWsB l hq
  rw [← Option.some_inj.1 h2] at h3
  exact h3

theorem strip_getLast?_not_ws {l : List Char} {a : Char}
    (h : (strip l).getLast? = some a) : isWsB a = false := by
  unfold strip at h
  rw [List.getLast?_reverse] at h
  have hs : (l.dropWhile isWsB).reverse.dropWhile isWsB ≠ [] := by
    intro h0; rw [h0] at h; simp at h
  have h2 := List.head?_eq_head hs
  rw [h] at h2
  have h3 := List.head_dropWhile_not isWsB (l.dropWhile isWsB).reverse hs
  rw [← Option.some_inj.1 h2] at h3
  exact h3

theorem strip_getLast?_keep {l : List Char} {a : Char}
    (h : l.getLast? = some a) (hw : isWsB a = false) :
    (strip l).getLast? = some a := by
  have hq : l.dropWhile isWsB ≠ [] := by
    intro h0
    have hall := List.dropWhile_eq_nil_iff.1 h0
    obtain ⟨ys, hys⟩ := List.getLast?_eq_some_iff.1 h
    have : isWsB a = true := hall a (by rw [hys]; simp)
    rw [hw] at this; exact Bool.false_ne_true this
  have hql : (l.dropWhile isWsB).getLast? = some a := by
    conv at h => rw [← List.takeWhile_append_dropWhile isWsB l]
    rw [List.getLast?_append] at h
    obtain ⟨b, hb⟩ := Option.isSome_iff_exists.1 (List.getLast?_isSome.2 hq)
    rw [hb] at h ⊢
    simpa using h
  have hrh : ((l.dropWhile isWsB).reverse).head? = some a := by
    rw [List.head?_reverse]; exact hql
  obtain ⟨ys, hys⟩ := List.head?_eq_some_iff.1 hrh
  unfold strip
  rw [hys, List.dropWhile_cons, if_neg (by simp [hw]), ← hys]
  rw [List.getLast?_reverse, List.head?_reverse]
  exact hql

theorem strip_eq_self {l : List Char}
    (h1 : ∀ a, l.head? = some a → isWsB a = false)
    (h2 : ∀ a, l.getLast? = some a → isWsB a = false) :
    strip l = l := by
  cases l with
  | nil => rfl
  | cons c rest =>
    have hc : isWsB c = false := h1 c rfl
    unfold strip
    rw [List.dropWhile_cons, if_neg (by simp [hc])]
    have hr : (c :: rest).reverse ≠ [] := by simp
    obtain ⟨b, L, hb⟩ := List.exists_cons_of_ne_nil hr
    have hbl : (c :: rest).getLast? = some b := by
      rw [← List.head?_reverse, hb]; rfl
    have hbw : isWsB b = false := h2 b hbl
    rw [hb, List.dropWhile_cons, if_neg (by simp [hbw]), ← hb, List.reverse_reverse]

theorem strip_contained (l : List Char) : strip l <:+: l := by
  have h1 : (l.dropWhile isWsB).reverse.dropWhile isWsB <:+ (l.dropWhile isWsB).reverse :=
    List.dropWhile_suffix _
  have h2 : strip l <+: l.dropWhile isWsB := by
    apply List.reverse_suffix.1
    simpa [strip] using h1
  exact h2.isInfix.trans (List.dropWhile_suffix isWsB).isInfix

/-! ### Structure of the sentence scanner's output -/

theorem nwsJoin_nil : nwsJoin [] = [] := rfl

theorem nwsJoin_cons (x : List Char) (ls : List (List Char)) :
    nwsJoin (x :: ls) = nws x ++ nwsJoin ls := by
  simp [nwsJoin]

theorem nws_cons (c : Char) (l : List Char) :
    nws (c :: l) = if isWsB c then nws l else c :: nws l := by
  simp only [nws, List.filter_cons]
  by_cases h : isWsB c <;> simp [h]

theorem splitSentGo_ne_nil (l : List Char) :
    ∀ sk acc, splitSentGo sk l acc ≠ [] := by
  induction l with
  | nil => intro sk acc; simp [splitSentGo]
  | cons c rest ih =>
    intro sk acc
    simp only [splitSentGo]
    split
    · exact ih true acc
    · split
      · exact List.cons_ne_nil _ _
      · exact ih false (c :: acc)

theorem nwsJoin_splitSentGo (l : List Char) :
    ∀ sk acc, nwsJoin (splitSentGo sk l acc) = nws acc.reverse ++ nws l := by
  induction l with
  | nil =>
    intro sk acc
    simp [splitSentGo, nwsJoin, nws]
  | cons c rest ih =>
    intro sk acc
    simp only [splitSentGo]
    split
    · rename_i hskip
      have hc : isWsB c = true := by
        simp only [Bool.and_eq_true] at hskip; exact hskip.2
      rw [ih true acc, nws_cons, if_pos hc]
    · split
      · rename_i hbnd
        have hc : isSentEnd c = true := by
          simp only [Bool.and_eq_true] at hbnd; exact hbnd.1
        have hcw : isWsB c = false := sentEnd_not_ws hc
        rw [nwsJoin_cons, ih true [], nws_cons, if_neg (by simp [hcw])]
        simp only [List.reverse_cons, nws, List.filter_append, List.filter_cons]
        simp [hcw, List.append_assoc]
      · rw [ih false (c :: acc), nws_cons]
        simp only [List.reverse_cons, nws, List.filter_append, List.filter_cons]
        by_cases hcw : isWsB c <;> simp [hcw, List.append_assoc]

theorem splitSentGo_chain (l : List Char) :
    ∀ sk acc, (sk = true → acc = []) → List.Chain' OkP acc.reverse →
    (sk = false → ∀ a b, acc.head? = some a → l.head? = some b → OkP a b) →
    ∀ p ∈ splitSentGo sk l acc, List.Chain' OkP p := by
  induction l with
  | nil =>
    intro sk acc _ hch _ p hp
    simp only [splitSentGo, List.mem_singleton] at hp
    exact hp ▸ hch
  | cons c rest ih =>
    intro sk acc hsk hch hj p hp
    have hext : acc ≠ [] → List.Chain' OkP (acc.reverse ++ [c]) := by
      intro hne
      rcases List.exists_cons_of_ne_nil hne with ⟨a0, at0, ha⟩
      apply List.chain'_append.2
      refine ⟨hch, List.chain'_singleton c, ?_⟩
      intro x hx y hy
      rw [List.getLast?_reverse, ha] at hx
      simp only [List.head?_cons, Option.mem_def, Option.some_inj] at hx hy
      subst hx; subst hy
      cases hbsk : sk with
      | true => exact absurd (hsk hbsk) hne
      | false => exact hj hbsk a0 c (by rw [ha]; rfl) rfl
    simp only [splitSentGo] at hp
    split at hp
    · rename_i hskip
      have hsk2 : sk = true := by
        simp only [Bool.and_eq_true] at hskip; exact hskip.1
      exact ih true acc (fun _ => hsk hsk2) hch (by simp) p hp
    · split at hp
      · rename_i hbnd
        rcases List.mem_cons.1 hp with hp1 | hp2
        · subst hp1
          rw [List.reverse_cons]
          by_cases hne : acc = []
          · subst hne; exact List.chain'_singleton c
          · exact hext hne
        · exact ih true [] (fun _ => rfl) List.chain'_nil (by simp) p hp2
      · rename_i hskip hbnd
        refine ih false (c :: acc) (by simp) ?_ ?_ p hp
        · rw [List.reverse_cons]
          by_cases hne : acc = []
          · subst hne; exact List.chain'_singleton c
          · exact hext hne
        · intro _ a b ha hb
          simp only [List.head?_cons, Option.some_inj] at ha
          subst ha
          intro hce
          by_contra hbw
          have hbw2 : isWsB b = true := by
            cases hx : isWsB b
            · exact absurd hx hbw
            · rfl
          apply hbnd
          have hrest : headIsWs rest = true := by
            rcases List.head?_eq_some_iff.1 hb with ⟨ys, hys⟩
            rw [hys]; simpa [headIsWs] using hbw2
          simp [hce, hrest]

theorem splitSentGo_dropLast_punct (l : List Char) :
    ∀ sk acc, ∀ p ∈ (splitSentGo sk l acc).dropLast, EndsPunct p := by
  induction l with
  | nil =>
    intro sk acc p hp
    simp [splitSentGo, List.dropLast_single] at hp
  | cons c rest ih =>
    intro sk acc p hp
    simp only [splitSentGo] at hp
    split at hp
    · exact ih true acc p hp
    · split at hp
      · rename_i hbnd
        rw [List.dropLast_cons_of_ne_nil (splitSentGo_ne_nil rest true [])] at hp
        rcases List.mem_cons.1 hp with hp1 | hp2
        · subst hp1
          simp only [Bool.and_eq_true] at hbnd
          refine ⟨c, ?_, hbnd.1⟩
          rw [List.reverse_cons, List.getLast?_concat]
        · exact ih true [] p hp2
      · exact ih false (c :: acc) p hp

/-! ### Properties of `splitIntoSentences` -/

theorem nwsJoin_filter_ne_nil (ls : List (List Char)) :
    nwsJoin (ls.filter (fun s => s ≠ [])) = nwsJoin ls := by
  induction ls with
  | nil => rfl
  | cons x rest ih =>
    by_cases hx : x = []
    · subst hx
      rw [List.filter_cons, if_neg (by simp), ih, nwsJoin_cons]
      simp [nws]
    · rw [List.filter_cons, if_pos (by simp [hx]), nwsJoin_cons, nwsJoin_cons, ih]

theorem nwsJoin_map_strip (ls : List (List Char)) :
    nwsJoin (ls.map strip) = nwsJoin ls := by
  induction ls with
  | nil => rfl
  | cons x rest ih =>
    rw [List.map_cons, nwsJoin_cons, nwsJoin_cons, ih, nws_strip]

theorem nwsJoin_sentences (t : List Char) :
    nwsJoin (splitIntoSentences t) = nws t := by
  unfold splitIntoSentences splitSentRaw
  rw [nwsJoin_filter_ne_nil, nwsJoin_map_strip, nwsJoin_splitSentGo]
  simp [nws]

theorem sentences_nil_iff (t : List Char) :
    splitIntoSentences t = [] ↔ ∀ c ∈ t, isWsB c = true := by
  constructor
  · intro h
    have h2 := nwsJoin_sentences t
    rw [h] at h2
    exact nws_nil_iff.1 h2.symm
  · intro h
    unfold splitIntoSentences
    rw [List.filter_eq_nil_iff]
    intro s hs
    rcases List.mem_map.1 hs with ⟨p, hp, hsp⟩
    have hnwst : nws t = [] := nws_nil_iff.2 h
    have hraw : nwsJoin (splitSentRaw t) = [] := by
      unfold splitSentRaw
      rw [nwsJoin_splitSentGo]
      simpa [nws] using hnwst
    have hp2 : nws p = [] := by
      unfold nwsJoin at hraw
      exact List.flatten_eq_nil_iff.1 hraw (nws p) (List.mem_map.2 ⟨p, hp, rfl⟩)
    have : strip p = [] := strip_nil_iff.2 (nws_nil_iff.1 hp2)
    simp [← hsp, this]

theorem sentences_mem_ne_nil {t s : List Char} (hs : s ∈ splitIntoSentences t) :
    s ≠ [] := by
  unfold splitIntoSentences at hs
  have := (List.mem_filter.1 hs).2
  simpa using this

theorem sentences_mem_strip {t s : List Char} (hs : s ∈ splitIntoSentences t) :
    strip s = s := by
  unfold splitIntoSentences at hs
  rcases List.mem_map.1 (List.mem_of_mem_filter hs) with ⟨p, _, hsp⟩
  subst hsp
  refine strip_eq_self ?_ ?_
  · intro a ha; exact strip_head?_not_ws ha
  · intro a ha; exact strip_getLast?_not_ws ha

theorem sentences_mem_chain {t s : List Char} (hs : s ∈ splitIntoSentences t) :
    List.Chain' OkP s := by
  unfold splitIntoSentences at hs
  rcases List.mem_map.1 (List.mem_of_mem_filter hs) with ⟨p, hp, hsp⟩
  subst hsp
  have hch : List.Chain' OkP p := by
    refine splitSentGo_chain t false [] (by simp) List.chain'_nil (by simp) p hp
  exact hch.infix (strip_contained p)

theorem mem_dropLast_filter {α : Type} (P : α → Bool) (xs : List α) :
    ∀ x ∈ (xs.filter P).dropLast, x ∈ xs.dropLast := by
  induction xs with
  | nil => simp
  | cons a rest ih =>
    intro x hx
    rw [List.filter_cons] at hx
    by_cases hP : P a
    · rw [if_pos hP] at hx
      cases hfr : rest.filter P with
      | nil => rw [hfr] at hx; simp [List.dropLast_single] at hx
      | cons b bs =>
        rw [hfr] at hx
        rw [List.dropLast_cons_of_ne_nil (List.cons_ne_nil b bs)] at hx
        have hrest : rest ≠ [] := by
          intro h0; rw [h0] at hfr; simp at hfr
        rw [List.dropLast_cons_of_ne_nil hrest]
        rcases List.mem_cons.1 hx with hx1 | hx2
        · exact hx1 ▸ List.mem_cons_self a _
        · exact List.mem_cons_of_mem a (ih x (by rw [hfr]; exact hx2))
    · rw [if_neg hP] at hx
      have hx2 := ih x hx
      have hrest : rest ≠ [] := by
        intro h0; rw [h0] at hx2; simp at hx2
      rw [List.dropLast_cons_of_ne_nil hrest]
      exact List.mem_cons_of_mem a hx2

theorem sentences_dropLast_punct (t : List Char) :
    ∀ s ∈ (splitIntoSentences t).dropLast, EndsPunct s := by
  intro s hs
  unfold splitIntoSentences at hs
  have hs2 : s ∈ ((splitSentRaw t).map strip).dropLast :=
    mem_dropLast_filter _ _ s hs
  rw [← List.map_dropLast] at hs2
  rcases List.mem_map.1 hs2 with ⟨p, hp, hsp⟩
  have hpe : EndsPunct p := splitSentGo_dropLast_punct t false [] p hp
  rcases hpe with ⟨a, ha, hae⟩
  exact ⟨a, hsp ▸ strip_getLast?_keep ha (sentEnd_not_ws hae), hae⟩

/-! ### Duration floor lemmas -/

theorem analyzeSyllables_ge (s : List Char) : (0.7 : ℚ) ≤ analyzeSyllables s := by
  unfold analyzeSyllables
  split
  · norm_num
  · exact le_max_left _ _

theorem analyzeSyllables_pos (s : List Char) : 0 < analyzeSyllables s :=
  lt_of_lt_of_le (by norm_num) (analyzeSyllables_ge s)

theorem appSentenceDuration_ge (s : List Char) : (0.7 : ℚ) ≤ appSentenceDuration s :=
  le_max_left _ _

theorem sum_ge_of_mem_ge {l : List ℚ} (hne : l ≠ []) (h : ∀ x ∈ l, (0.7 : ℚ) ≤ x) :
    (0.7 : ℚ) ≤ l.sum := by
  cases l with
  | nil => exact absurd rfl hne
  | cons x rest =>
    rw [List.sum_cons]
    have h1 : (0.7 : ℚ) ≤ x := h x (List.mem_cons_self x rest)
    have h2 : 0 ≤ rest.sum :=
      List.sum_nonneg (fun y hy => le_trans (by norm_num) (h y (List.mem_cons_of_mem x hy)))
    linarith

/-! ### Claim C1 -/

/-- C1: for every input string, app.py's `estimate_speech_duration` (the
spec's primary duration estimator) returns exactly 0 when the input is empty
or whitespace-only, and at least 0.7 seconds when the input contains at least
one non-whitespace character. -/
theorem c1_estimator_zero_and_floor (t : List Char) :
    ((∀ c ∈ t, isWsB c = true) → estimateSpeechDuration t = 0) ∧
    ((∃ c ∈ t, isWsB c = false) → (0.7 : ℚ) ≤ estimateSpeechDuration t) := by
  constructor
  · intro h
    unfold estimateSpeechDuration
    rw [if_pos (Or.inr (strip_nil_iff.2 h))]
  · rintro ⟨c, hc, hcw⟩
    have hstrip : strip t ≠ [] := by
      intro h0
      have := strip_nil_iff.1 h0 c hc
      rw [hcw] at this; exact Bool.false_ne_true this
    have htne : t ≠ [] := by
      intro h0; subst h0; exact absurd hc (List.not_mem_nil c)
    unfold estimateSpeechDuration
    rw [if_neg (by simp [htne, hstrip])]
    have hsne : splitIntoSentences t ≠ [] := by
      intro h0
      have := (sentences_nil_iff _).1 h0 c hc
      rw [hcw] at this; exact Bool.false_ne_true this
    refine sum_ge_of_mem_ge (by simpa using hsne) ?_
    intro x hx
    rcases List.mem_map.1 hx with ⟨s, _, rfl⟩
    exact appSentenceDuration_ge s

/-- C1 witness at a whitespace-only input and at a one-syllable input. -/
theorem c1_estimator_zero_and_floor_witness :
    estimateSpeechDuration [' '] = 0 ∧ (0.7 : ℚ) ≤ estimateSpeechDuration ['가', '.'] :=
  ⟨(c1_estimator_zero_and_floor [' ']).1 (by decide),
   (c1_estimator_zero_and_floor ['가', '.']).2 ⟨'가', by decide, by decide⟩⟩

/-! ### Claim C2 -/

theorem emitClauses_head_start (ts : List (List Char)) (t0 : ℚ) :
    ∀ c, (emitClauses ts t0).head? = some c → c.start_time = t0 := by
  cases ts with
  | nil => intro c hc; simp [emitClauses] at hc
  | cons cl rest =>
    intro c hc
    simp only [emitClauses, List.head?_cons, Option.some_inj] at hc
    rw [← hc]

theorem emitClauses_chain (ts : List (List Char)) :
    ∀ t0, List.Chain' (fun a b => a.end_time = b.start_time) (emitClauses ts t0) := by
  induction ts with
  | nil => intro t0; exact List.chain'_nil
  | cons cl rest ih =>
    intro t0
    simp only [emitClauses]
    refine List.chain'_cons'.2 ⟨?_, ih _⟩
    intro b hb
    have := emitClauses_head_start rest (t0 + analyzeSyllables cl) b hb
    simp [this]

theorem emitClauses_mem_bounds (ts : List (List Char)) :
    ∀ t0, ∀ c ∈ emitClauses ts t0, t0 ≤ c.start_time ∧ c.start_time < c.end_time := by
  induction ts with
  | nil => intro t0 c hc; simp [emitClauses] at hc
  | cons cl rest ih =>
    intro t0 c hc
    simp only [emitClauses, List.mem_cons] at hc
    rcases hc with hc | hc
    · subst hc
      refine ⟨le_refl _, ?_⟩
      have := analyzeSyllables_pos cl
      simp only []
      linarith
    · have h2 := ih (t0 + analyzeSyllables cl) c hc
      have := analyzeSyllables_pos cl
      exact ⟨by linarith [h2.1], h2.2⟩

/-- C2: the estimate-based timeline starts at 0, adjacent captions tile
exactly (each end time equals the next start time), and every caption has
`0 ≤ start_time < end_time`. -/
theorem c2_timeline_contiguity (script : List Char) :
    (∀ h : buildTimeline script ≠ [], ((buildTimeline script).head h).start_time = 0) ∧
    List.Chain' (fun a b => a.end_time = b.start_time) (buildTimeline script) ∧
    (∀ c ∈ buildTimeline script, 0 ≤ c.start_time ∧ c.start_time < c.end_time) := by
  refine ⟨?_, emitClauses_chain _ 0, ?_⟩
  · intro h
    exact emitClauses_head_start _ 0 _ (List.head?_eq_head h)
  · intro c hc
    have := emitClauses_mem_bounds ((splitIntoSentences script).flatMap splitIntoClauses) 0 c hc
    exact ⟨this.1, this.2⟩

/-- C2 witness on a concrete two-sentence script. -/
theorem c2_timeline_contiguity_witness :
    ((buildTimeline ['가', '.', ' ', '나', '.']).head
      (by decide)).start_time = 0 :=
  (c2_timeline_contiguity ['가', '.', ' ', '나', '.']).1 (by decide)

/-! ### Claim C3 -/

/-- C3: the rescaler is the identity on an empty caption list, on a zero
estimated duration, and when the actual duration is within 0.5s of the
estimate; otherwise it multiplies every timestamp by
`actual / estimated`, making the last end time exactly the actual duration. -/
theorem c3_rescaler_law (caps : List Caption) (D : ℚ) :
    (caps = [] → adjustTimestamps caps D = caps) ∧
    (∀ h : caps ≠ [],
      (|D - (caps.getLast h).end_time| < 0.5 → adjustTimestamps caps D = caps) ∧
      ((caps.getLast h).end_time = 0 → adjustTimestamps caps D = caps) ∧
      (¬ |D - (caps.getLast h).end_time| < 0.5 → (caps.getLast h).end_time ≠ 0 →
        adjustTimestamps caps D =
          caps.map (fun c =>
            { c with start_time := c.start_time * (D / (caps.getLast h).end_time),
                     end_time := c.end_time * (D / (caps.getLast h).end_time) }) ∧
        ∃ c, (adjustTimestamps caps D).getLast? = some c ∧ c.end_time = D)) := by
  constructor
  · intro h
    simp only [adjustTimestamps, dif_pos h]
  · intro h
    refine ⟨?_, ?_, ?_⟩
    · intro htol
      simp only [adjustTimestamps, dif_neg h]
      rw [if_pos htol]
    · intro hz
      simp only [adjustTimestamps, dif_neg h]
      by_cases htol : |D - (caps.getLast h).end_time| < 0.5
      · rw [if_pos htol]
      · rw [if_neg htol, if_pos hz]
    · intro htol hz
      have hmap : adjustTimestamps caps D =
          caps.map (fun c =>
            { c with start_time := c.start_time * (D / (caps.getLast h).end_time),
                     end_time := c.end_time * (D / (caps.getLast h).end_time) }) := by
        simp only [adjustTimestamps, dif_neg h]
        rw [if_neg htol, if_neg hz]
      refine ⟨hmap, ?_⟩
      refine ⟨{ caps.getLast h with
          start_time := (caps.getLast h).start_time * (D / (caps.getLast h).end_time),
          end_time := (caps.getLast h).end_time * (D / (caps.getLast h).end_time) }, ?_, ?_⟩
      · rw [hmap, List.getLast?_map, List.getLast?_eq_getLast caps h]
        rfl
      · simp only []
        rw [mul_comm, div_mul_cancel₀ _ hz]

/-- C3 witness: rescaling `[{0,5},{5,10}]` to an actual duration of 20
doubles all timestamps. -/
theorem c3_rescaler_law_witness :
    adjustTimestamps [⟨['a'], 0, 5⟩, ⟨['b'], 5, 10⟩] 20 =
      [⟨['a'], 0, 10⟩, ⟨['b'], 10, 20⟩] := by
  have h := ((c3_rescaler_law [⟨['a'], 0, 5⟩, ⟨['b'], 5, 10⟩] 20).2
    (by decide)).2.2 (by decide) (by decide)
  rw [h.1]
  decide

/-! ### Claim C4 (code bug: the tier chain tests `n > 10` first) -/

/-- C4: on a clause of 35 non-space characters the source multiplies by 0.85
(the `n > 10` branch), not by the 0.75 the highest-tier reading prescribes:
the `elif n > 20` and `elif n > 30` branches are unreachable. -/
theorem c4_tier_shadowed :
    analyzeSyllables (List.replicate 35 'ㄱ') = 35 / 6.5 * 0.85 ∧
    analyzeSyllables (List.replicate 35 'ㄱ') ≠ 35 / 6.5 * 0.75 := by
  constructor
  · decide
  · decide

/-! ### Claim C5 (code bug: connective/quotative branches are unreachable) -/

/-- C5: `먹고` ends in the connective `고` and in no case particle, sits in
non-final position with 2 words accumulated — yet the splitter does not cut
after it: the first fragment runs on to `집에` (3 words), because the
connective and quotative `elif` arms repeat the particle arm's condition and
can never run. -/
theorem c5_connective_never_splits :
    splitByKoreanParticles ("그는 먹고 집에 빨리 갔다".toList) =
      ["그는 먹고 집에".toList, "빨리 갔다".toList] ∧
    connectiveCheck ("먹고".toList) = true ∧
    particleCheck ("먹고".toList) = false := by
  refine ⟨?_, ?_, ?_⟩ <;> decide

/-! ### Claim C10 -/

/-- C10 counterexample: `"   "` is a non-empty input on which the sentence
segmenter returns the empty sequence — there is no fail-open fallback. -/
theorem c10_counterexample :
    ([' ', ' ', ' '] : List Char) ≠ [] ∧ splitIntoSentences [' ', ' ', ' '] = [] :=
  ⟨by decide, by decide⟩

/-- C10 (amended): for every input containing at least one non-whitespace
character the segmenter returns a non-empty sequence of non-empty trimmed
strings; for empty or whitespace-only input it returns the empty sequence
(there is no single-element fallback). -/
theorem c10_segmenter_amended (t : List Char) :
    ((∃ c ∈ t, isWsB c = false) →
      splitIntoSentences t ≠ [] ∧
      ∀ s ∈ splitIntoSentences t, s ≠ [] ∧ strip s = s) ∧
    ((∀ c ∈ t, isWsB c = true) → splitIntoSentences t = []) := by
  constructor
  · rintro ⟨c, hc, hcw⟩
    refine ⟨?_, fun s hs => ⟨sentences_mem_ne_nil hs, sentences_mem_strip hs⟩⟩
    intro h0
    have := (sentences_nil_iff _).1 h0 c hc
    rw [hcw] at this; exact Bool.false_ne_true this
  · exact fun h => (sentences_nil_iff _).2 h

/-- C10 witness at `"a."` (non-whitespace present) and `" "` (whitespace-only). -/
theorem c10_segmenter_amended_witness :
    splitIntoSentences ['a', '.'] ≠ [] ∧ splitIntoSentences [' '] = [] :=
  ⟨((c10_segmenter_amended ['a', '.']).1 ⟨'a', by decide, by decide⟩).1,
   (c10_segmenter_amended [' ']).2 (by decide)⟩

/-! ### Claim C6: no stage drops non-whitespace characters -/

theorem nwsJoin_append (l1 l2 : List (List Char)) :
    nwsJoin (l1 ++ l2) = nwsJoin l1 ++ nwsJoin l2 := by
  simp [nwsJoin, List.map_append, List.flatten_append]

theorem nwsJoin_eq_nws_flatten (ls : List (List Char)) :
    nwsJoin ls = nws ls.flatten := by
  induction ls with
  | nil => rfl
  | cons x rest ih =>
    rw [nwsJoin_cons, ih, List.flatten_cons]
    simp [nws, List.filter_append]

theorem nws_nws (l : List Char) : nws (nws l) = nws l := by
  simp [nws, List.filter_filter]

theorem splitPrimaryRaw_flatten (l : List Char) :
    ∀ acc, (splitPrimaryRaw l acc).flatten = acc.reverse ++ l := by
  induction l with
  | nil => intro acc; simp [splitPrimaryRaw]
  | cons c rest ih =>
    intro acc
    simp only [splitPrimaryRaw]
    split
    · rw [List.flatten_cons, ih []]
      simp
    · rw [ih (c :: acc)]
      simp

theorem wordsGo_flatten (l : List Char) :
    ∀ cur, (wordsGo l cur).flatten = cur.reverse ++ nws l := by
  induction l with
  | nil =>
    intro cur
    by_cases h : cur = [] <;> simp [wordsGo, h, nws]
  | cons c rest ih =>
    intro cur
    simp only [wordsGo]
    split
    · rename_i hws
      rw [nws_cons, if_pos hws]
      by_cases h : cur = []
      · rw [if_pos h, ih []]
        simp [h]
      · rw [if_neg h, List.flatten_cons, ih []]
        simp
    · rename_i hws
      rw [ih (c :: cur), nws_cons, if_neg (by simpa using hws)]
      simp

theorem words_flatten (t : List Char) : (words t).flatten = nws t := by
  unfold words
  rw [wordsGo_flatten]
  rfl

theorem koreanLoop_nwsJoin (lw : List (List Char)) :
    ∀ cur wc, nwsJoin (koreanLoop lw cur wc) = nws cur ++ nwsJoin lw := by
  induction lw with
  | nil =>
    intro cur wc
    by_cases h : cur = [] <;> simp [koreanLoop, h, nwsJoin_cons, nws]
  | cons w rest ih =>
    intro cur wc
    simp only [koreanLoop]
    have hcur2 : nws (if cur = [] then w else cur ++ ' ' :: w) = nws cur ++ nws w := by
      by_cases h : cur = []
      · simp [h, nws]
      · rw [if_neg h]
        simp only [nws, List.filter_append, List.filter_cons]
        norm_num [isWsB]
    cases hss : shouldSplitWord w (wc + 1) rest.isEmpty
    · rw [if_neg (by simp [hss]), ih _ _, hcur2, nwsJoin_cons]
      simp [List.append_assoc]
    · rw [if_pos (by simp [hss]), nwsJoin_cons, ih [] 0, hcur2, nwsJoin_cons]
      simp [nws, List.append_assoc]

theorem splitByKoreanParticles_eq (t : List Char) :
    splitByKoreanParticles t =
      if (words t).length ≤ 3 then [t]
      else if koreanLoop (words t) [] 0 = [] then [t]
      else koreanLoop (words t) [] 0 := rfl

theorem splitByKoreanParticles_nwsJoin (t : List Char) :
    nwsJoin (splitByKoreanParticles t) = nws t := by
  rw [splitByKoreanParticles_eq]
  by_cases h3 : (words t).length ≤ 3
  · rw [if_pos h3]
    simp [nwsJoin_cons, nwsJoin_nil]
  · rw [if_neg h3]
    by_cases hfr : koreanLoop (words t) [] 0 = []
    · rw [if_pos hfr]
      simp [nwsJoin_cons, nwsJoin_nil]
    · rw [if_neg hfr, koreanLoop_nwsJoin (words t) [] 0,
        nwsJoin_eq_nws_flatten, words_flatten, nws_nws]
      rfl

theorem recombine_nwsJoin (ls : List (List Char)) :
    ∀ cur, nwsJoin (recombine ls cur) = nws cur ++ nwsJoin ls := by
  induction ls with
  | nil =>
    intro cur
    by_cases h : cur = [] <;> simp [recombine, h, nwsJoin_cons, nws]
  | cons cl rest ih =>
    intro cur
    simp only [recombine]
    split
    · rename_i h
      rw [ih cl, h]
      simp [nws, nwsJoin_cons]
    · split
      · rw [nwsJoin_cons, ih cl, nwsJoin_cons]
      · rw [ih _, nwsJoin_cons]
        have : nws (cur ++ ' ' :: cl) = nws cur ++ nws cl := by
          simp only [nws, List.filter_append, List.filter_cons]
          norm_num [isWsB]
        rw [this]
        simp [List.append_assoc]

theorem nwsJoin_filter_strip (ls : List (List Char)) :
    nwsJoin (ls.filter (fun c => strip c ≠ [])) = nwsJoin ls := by
  induction ls with
  | nil => rfl
  | cons x rest ih =>
    rw [List.filter_cons]
    by_cases hx : strip x = []
    · rw [if_neg (by simp [hx]), ih, nwsJoin_cons]
      have : nws x = [] := by rw [← nws_strip, hx]; rfl
      rw [this, List.nil_append]
    · rw [if_pos (by simp [hx]), nwsJoin_cons, nwsJoin_cons, ih]

theorem clauseFragments_nwsJoin (p : List Char) :
    nwsJoin (clauseFragments p) = nws p := by
  unfold clauseFragments
  by_cases h1 : strip p = []
  · rw [if_pos h1, ← nws_strip, h1]
    rfl
  · rw [if_neg h1]
    by_cases h2 : (strip p).length ≤ 20
    · rw [if_pos h2, nwsJoin_cons, nwsJoin_nil, List.append_nil, nws_strip]
    · rw [if_neg h2, splitByKoreanParticles_nwsJoin, nws_strip]

theorem nwsJoin_flatMap_fragments (ps : List (List Char)) :
    nwsJoin (ps.flatMap clauseFragments) = nwsJoin ps := by
  induction ps with
  | nil => rfl
  | cons p rest ih =>
    rw [List.flatMap_cons, nwsJoin_append, ih, clauseFragments_nwsJoin, nwsJoin_cons]

theorem splitIntoClauses_eq (s : List Char) :
    splitIntoClauses s =
      if s.length ≤ 10 then [s]
      else if (recombine ((splitPrimaryRaw s []).flatMap clauseFragments) []).filter
          (fun c => strip c ≠ []) = [] then [s]
      else (recombine ((splitPrimaryRaw s []).flatMap clauseFragments) []).filter
          (fun c => strip c ≠ []) := rfl

theorem splitIntoClauses_nwsJoin (s : List Char) :
    nwsJoin (splitIntoClauses s) = nws s := by
  rw [splitIntoClauses_eq]
  by_cases hlen : s.length ≤ 10
  · rw [if_pos hlen]
    simp [nwsJoin_cons, nwsJoin_nil]
  · rw [if_neg hlen]
    have hcore : nwsJoin ((recombine ((splitPrimaryRaw s []).flatMap clauseFragments)
        []).filter (fun c => strip c ≠ [])) = nws s := by
      rw [nwsJoin_filter_strip, recombine_nwsJoin, nwsJoin_flatMap_fragments,
        nwsJoin_eq_nws_flatten, splitPrimaryRaw_flatten]
      rfl
    split
    · simp [nwsJoin_cons, nwsJoin_nil]
    · exact hcore

theorem emitClauses_texts (ts : List (List Char)) :
    ∀ t0, (emitClauses ts t0).map Caption.text = ts := by
  induction ts with
  | nil => intro t0; rfl
  | cons cl rest ih =>
    intro t0
    simp only [emitClauses, List.map_cons, ih]

theorem nwsJoin_flatMap_clauses (ls : List (List Char)) :
    nwsJoin (ls.flatMap splitIntoClauses) = nwsJoin ls := by
  induction ls with
  | nil => rfl
  | cons s rest ih =>
    rw [List.flatMap_cons, nwsJoin_append, ih, splitIntoClauses_nwsJoin, nwsJoin_cons]

/-- C6: concatenating the text fields of the estimate-based timeline's
captions reproduces, up to whitespace, exactly the non-whitespace content of
the script: neither sentence splitting, clause splitting, nor recombination
drops a non-whitespace character. -/
theorem c6_segmentation_coverage (script : List Char) :
    nws (((buildTimeline script).map Caption.text).flatten) = nws script := by
  unfold buildTimeline estimateTimestamps
  rw [emitClauses_texts, ← nwsJoin_eq_nws_flatten, nwsJoin_flatMap_clauses,
    nwsJoin_sentences]

/-! ### Round trip: re-splitting a space-joined sentence list -/

theorem splitSentGo_cons (sk : Bool) (c : Char) (rest acc : List Char) :
    splitSentGo sk (c :: rest) acc =
      if sk && isWsB c then splitSentGo true rest acc
      else if isSentEnd c && headIsWs rest then
        (c :: acc).reverse :: splitSentGo true rest []
      else splitSentGo false rest (c :: acc) := rfl

theorem splitSentGo_no_bnd (s : List Char) :
    ∀ acc, List.Chain' OkP s → splitSentGo false s acc = [acc.reverse ++ s] := by
  induction s with
  | nil => intro acc _; simp [splitSentGo]
  | cons c rest ih =>
    intro acc hch
    have hnb : (isSentEnd c && headIsWs rest) = false := by
      cases rest with
      | nil => simp [headIsWs]
      | cons b rest2 =>
        have hok : OkP c b := (List.chain'_cons.1 hch).1
        simp only [headIsWs]
        cases hse : isSentEnd c
        · rfl
        · rw [hok hse]; rfl
    simp only [splitSentGo, Bool.false_and]
    rw [if_neg (by simp), if_neg (by simp [hnb]), ih (c :: acc) hch.tail]
    simp

theorem splitSentGo_true_of_head (t : List Char) (acc : List Char)
    (h : headIsWs t = false) :
    splitSentGo true t acc = splitSentGo false t acc := by
  cases t with
  | nil => rfl
  | cons c rest =>
    have hc : isWsB c = false := by simpa [headIsWs] using h
    simp [splitSentGo, hc]

theorem endsPunct_tail {c : Char} {s2 : List Char} (h : EndsPunct (c :: s2))
    (hne : s2 ≠ []) : EndsPunct s2 := by
  rcases h with ⟨a, ha, hae⟩
  refine ⟨a, ?_, hae⟩
  obtain ⟨b, hb⟩ := Option.isSome_iff_exists.1 (List.getLast?_isSome.2 hne)
  have : (c :: s2).getLast? = s2.getLast? := by
    have h2 : (c :: s2) = [c] ++ s2 := rfl
    rw [h2, List.getLast?_append, hb]
    rfl
  rw [← this, ha]

theorem splitSentGo_append (s : List Char) (t2 : List Char) :
    ∀ acc, s ≠ [] → List.Chain' OkP s → EndsPunct s →
    splitSentGo false (s ++ ' ' :: t2) acc =
      (acc.reverse ++ s) :: splitSentGo true t2 [] := by
  induction s with
  | nil => intro acc hne _ _; exact absurd rfl hne
  | cons c s2 ih =>
    intro acc _ hch hpt
    cases hs2 : s2 with
    | nil =>
      have hse : isSentEnd c = true := by
        rcases hpt with ⟨a, ha, hae⟩
        rw [hs2] at ha
        simp only [List.getLast?_singleton, Option.some_inj] at ha
        rw [ha]; exact hae
      subst hs2
      rw [List.cons_append, List.nil_append, splitSentGo_cons]
      rw [if_neg (by simp), if_pos (by simp [hse, headIsWs, isWsB])]
      rw [splitSentGo_cons, if_pos (by simp [isWsB])]
      simp
    | cons b s3 =>
      subst hs2
      have hok : OkP c b := (List.chain'_cons.1 hch).1
      have hnb : (isSentEnd c && headIsWs ((b :: s3) ++ ' ' :: t2)) = false := by
        simp only [List.cons_append, headIsWs]
        cases hse : isSentEnd c
        · rfl
        · rw [hok hse]; rfl
      rw [List.cons_append, splitSentGo_cons]
      rw [if_neg (by simp), if_neg (by simp only [hnb]; exact Bool.false_ne_true)]
      rw [ih (c :: acc) (by simp) hch.tail (endsPunct_tail hpt (by simp))]
      simp

theorem intercalate_single (x : List Char) : List.intercalate [' '] [x] = x := by
  simp [List.intercalate]

theorem intercalate_cons2 (x y : List Char) (l : List (List Char)) :
    List.intercalate [' '] (x :: y :: l) = x ++ ' ' :: List.intercalate [' '] (y :: l) := by
  simp [List.intercalate, List.intersperse]

theorem intercalate_head? (x : List Char) (l : List (List Char)) (hx : x ≠ []) :
    (List.intercalate [' '] (x :: l)).head? = x.head? := by
  cases l with
  | nil => rw [intercalate_single]
  | cons y l2 =>
    rw [intercalate_cons2, List.head?_append]
    obtain ⟨c, cs, rfl⟩ := List.exists_cons_of_ne_nil hx
    rfl

theorem split_join_raw (ks : List (List Char)) :
    ks ≠ [] →
    (∀ s ∈ ks, s ≠ [] ∧ strip s = s ∧ List.Chain' OkP s) →
    (∀ s ∈ ks.dropLast, EndsPunct s) →
    splitSentGo false (List.intercalate [' '] ks) [] = ks := by
  induction ks with
  | nil => intro hne _ _; exact absurd rfl hne
  | cons s rest ih =>
    intro _ hall hpunct
    cases rest with
    | nil =>
      rw [intercalate_single, splitSentGo_no_bnd s []
        (hall s (List.mem_cons_self s [])).2.2]
      simp
    | cons y l2 =>
      rw [intercalate_cons2]
      rw [splitSentGo_append s _ [] (hall s (List.mem_cons_self _ _)).1
        (hall s (List.mem_cons_self _ _)).2.2
        (hpunct s (by
          rw [List.dropLast_cons_of_ne_nil (List.cons_ne_nil y l2)]
          exact List.mem_cons_self _ _))]
      have hyne : y ≠ [] := (hall y (by simp)).1
      have hyhead : headIsWs (List.intercalate [' '] (y :: l2)) = false := by
        obtain ⟨c, cs, hy⟩ := List.exists_cons_of_ne_nil hyne
        have h1 : (List.intercalate [' '] (y :: l2)).head? = some c := by
          rw [intercalate_head? y l2 hyne, hy]; rfl
        obtain ⟨zs, hz⟩ := List.head?_eq_some_iff.1 h1
        rw [hz]
        have hcw : isWsB c = false := by
          apply strip_head?_not_ws (l := y)
          rw [(hall y (by simp)).2.1, hy]
          rfl
        simpa [headIsWs] using hcw
      rw [splitSentGo_true_of_head _ [] hyhead]
      rw [ih (List.cons_ne_nil y l2)
        (fun s2 hs2 => hall s2 (List.mem_cons_of_mem s hs2))
        (fun s2 hs2 => hpunct s2 (by
          rw [List.dropLast_cons_of_ne_nil (List.cons_ne_nil y l2)]
          exact List.mem_cons_of_mem s hs2))]
      simp

theorem split_join (ks : List (List Char))
    (hall : ∀ s ∈ ks, s ≠ [] ∧ strip s = s ∧ List.Chain' OkP s)
    (hpunct : ∀ s ∈ ks.dropLast, EndsPunct s) :
    splitIntoSentences (List.intercalate [' '] ks) = ks := by
  cases hks : ks with
  | nil => rfl
  | cons a l =>
    rw [← hks]
    unfold splitIntoSentences splitSentRaw
    rw [split_join_raw ks (by rw [hks]; exact List.cons_ne_nil a l) hall hpunct]
    have hmap : List.map strip ks = ks := by
      conv_rhs => rw [← List.map_id ks]
      exact List.map_congr_left (fun s hs => (hall s hs).2.1)
    rw [hmap]
    rw [List.filter_eq_self.2 (fun s hs => by simpa using (hall s hs).1)]

/-! ### Claim C7 -/

theorem greedyAdd_acc_mem (l : List (List Char × ℚ)) :
    ∀ r t sel x, x ∈ sel → x ∈ greedyAdd l r t sel := by
  induction l with
  | nil => intro r t sel x hx; exact hx
  | cons p rest ih =>
    intro r t sel x hx
    obtain ⟨s, d⟩ := p
    simp only [greedyAdd]
    split
    · exact ih _ _ _ x (List.mem_append_left _ hx)
    · exact ih _ _ _ x hx

theorem trimSelectedAll_head {sds : List (List Char × ℚ)} (maxd : ℚ)
    {f : List Char × ℚ} (hf : sds.head? = some f) :
    f.1 ∈ trimSelectedAll sds maxd := by
  have hres : f.1 ∈ trimRes sds maxd := by
    unfold trimRes trimStartSel
    rw [hf]
    exact greedyAdd_acc_mem _ _ _ _ _ (List.mem_cons_self _ _)
  unfold trimSelectedAll
  cases trimLast sds with
  | none => exact hres
  | some l2 =>
    show f.1 ∈ (if l2.1 ∈ trimRes sds maxd then trimRes sds maxd
      else trimRes sds maxd ++ [l2.1])
    by_cases hmem : l2.1 ∈ trimRes sds maxd
    · rw [if_pos hmem]; exact hres
    · rw [if_neg hmem]; exact List.mem_append_left _ hres

theorem trimSelectedAll_last {sds : List (List Char × ℚ)} (maxd : ℚ)
    {l2 : List Char × ℚ} (hl : trimLast sds = some l2) :
    l2.1 ∈ trimSelectedAll sds maxd := by
  unfold trimSelectedAll
  rw [hl]
  show l2.1 ∈ (if l2.1 ∈ trimRes sds maxd then trimRes sds maxd
    else trimRes sds maxd ++ [l2.1])
  by_cases hmem : l2.1 ∈ trimRes sds maxd
  · rw [if_pos hmem]; exact hmem
  · rw [if_neg hmem]; exact List.mem_append_right _ (List.mem_singleton.2 rfl)

theorem trimKept_head_mem (text : List Char) (maxd : ℚ) {a : List Char}
    (ha : (splitIntoSentences text).head? = some a) :
    a ∈ trimKept text maxd := by
  unfold trimKept
  apply List.mem_filter.2
  refine ⟨List.mem_of_mem_head? (by rw [ha]; rfl), ?_⟩
  have hf : (sentenceData text).head? = some (a, analyzeSyllables a) := by
    unfold sentenceData
    rw [List.head?_map, ha]
    rfl
  simpa using trimSelectedAll_head maxd hf

theorem trimKept_last_mem (text : List Char) (maxd : ℚ)
    (h2 : 2 ≤ (splitIntoSentences text).length) {a : List Char}
    (ha : (splitIntoSentences text).getLast? = some a) :
    a ∈ trimKept text maxd := by
  unfold trimKept
  apply List.mem_filter.2
  constructor
  · obtain ⟨ys, hys⟩ := List.getLast?_eq_some_iff.1 ha
    rw [hys]; simp
  · have hl : trimLast (sentenceData text) = some (a, analyzeSyllables a) := by
      unfold trimLast sentenceData
      rw [if_pos (by simpa using lt_of_lt_of_le one_lt_two h2)]
      rw [List.getLast?_map, ha]
      rfl
    simpa using trimSelectedAll_last maxd hl

theorem trimKept_sublist (text : List Char) (maxd : ℚ) :
    (trimKept text maxd).Sublist (splitIntoSentences text) :=
  List.filter_sublist _

theorem trim_split_eq (text : List Char) (maxd : ℚ)
    (hgt : ¬ estimateTotalDuration text ≤ maxd) :
    splitIntoSentences (trimScriptToDuration text maxd) = trimKept text maxd := by
  unfold trimScriptToDuration
  rw [if_neg hgt]
  apply split_join
  · intro s hs
    have hsS : s ∈ splitIntoSentences text := List.mem_of_mem_filter hs
    exact ⟨sentences_mem_ne_nil hsS, sentences_mem_strip hsS, sentences_mem_chain hsS⟩
  · intro s hs
    exact sentences_dropLast_punct text s (mem_dropLast_filter _ _ s hs)

theorem intercalate_ne_nil (ks : List (List Char)) (hne : ks ≠ [])
    (hhead : ∀ s ∈ ks, s ≠ []) : List.intercalate [' '] ks ≠ [] := by
  cases ks with
  | nil => exact absurd rfl hne
  | cons x rest =>
    cases rest with
    | nil =>
      rw [intercalate_single]
      exact hhead x (List.mem_cons_self _ _)
    | cons y l2 =>
      rw [intercalate_cons2]
      intro h0
      have := List.append_eq_nil.1 h0
      exact absurd this.2 (List.cons_ne_nil _ _)

theorem splitIntoSentences_nil : splitIntoSentences [] = [] := rfl

/-- C7: when the script splits into at least one sentence the trimmer returns
a non-empty script; with at least two sentences, the first and last original
sentences both reappear among the sentences of the trimmed output, and the
trimmed output's sentences form a subsequence (original relative order) of
the input's. -/
theorem c7_trim_endpoints (script : List Char) (maxd : ℚ) :
    (splitIntoSentences script ≠ [] → trimScriptToDuration script maxd ≠ []) ∧
    (2 ≤ (splitIntoSentences script).length →
      (∀ a, (splitIntoSentences script).head? = some a →
        a ∈ splitIntoSentences (trimScriptToDuration script maxd)) ∧
      (∀ a, (splitIntoSentences script).getLast? = some a →
        a ∈ splitIntoSentences (trimScriptToDuration script maxd)) ∧
      (splitIntoSentences (trimScriptToDuration script maxd)).Sublist
        (splitIntoSentences script)) := by
  by_cases hle : estimateTotalDuration script ≤ maxd
  · have hout : trimScriptToDuration script maxd = script := by
      unfold trimScriptToDuration
      rw [if_pos hle]
    constructor
    · intro hne
      rw [hout]
      intro h0
      rw [h0, splitIntoSentences_nil] at hne
      exact hne rfl
    · intro _
      rw [hout]
      exact ⟨fun a ha => List.mem_of_mem_head? (by rw [ha]; rfl),
        fun a ha => by
          obtain ⟨ys, hys⟩ := List.getLast?_eq_some_iff.1 ha
          rw [hys]; simp,
        List.Sublist.refl _⟩
  · have hsplit := trim_split_eq script maxd hle
    constructor
    · intro hne
      obtain ⟨a, ha⟩ := Option.isSome_iff_exists.1
        (by rw [List.head?_isSome]; exact hne)
      have hak : a ∈ trimKept script maxd := trimKept_head_mem script maxd ha
      have hkne : trimKept script maxd ≠ [] := by
        intro h0; rw [h0] at hak; exact List.not_mem_nil a hak
      unfold trimScriptToDuration
      rw [if_neg hle]
      refine intercalate_ne_nil _ hkne ?_
      intro s hs
      exact sentences_mem_ne_nil (List.mem_of_mem_filter hs)
    · intro h2
      refine ⟨?_, ?_, ?_⟩
      · intro a ha
        rw [hsplit]
        exact trimKept_head_mem script maxd ha
      · intro a ha
        rw [hsplit]
        exact trimKept_last_mem script maxd h2 ha
      · rw [hsplit]
        exact trimKept_sublist script maxd

/-- C7 witness on a concrete three-sentence script with a tight budget. -/
theorem c7_trim_endpoints_witness :
    trimScriptToDuration ("안녕. 반가워. 잘가.".toList) (1/10) ≠ [] ∧
    "안녕.".toList ∈ splitIntoSentences (trimScriptToDuration ("안녕. 반가워. 잘가.".toList) (1/10)) ∧
    "잘가.".toList ∈ splitIntoSentences (trimScriptToDuration ("안녕. 반가워. 잘가.".toList) (1/10)) := by
  have h := c7_trim_endpoints ("안녕. 반가워. 잘가.".toList) (1/10)
  refine ⟨h.1 (by decide), ?_, ?_⟩
  · exact (h.2 (by decide)).1 ("안녕.".toList) (by decide)
  · exact (h.2 (by decide)).2.1 ("잘가.".toList) (by decide)

/-! ### Claim C8 -/

/-- C8 counterexample: on the script `"X. X. Y."` with `X` a 25-character
sentence (duplicated) and budget 4.5s, the claim's hypotheses hold (3
sentences; first+last fit under `4.5 * 0.95`; total exceeds 4.5) but the
trimmed result still estimates above 4.5: value-based membership keeps every
duplicate of a selected sentence. -/
theorem c8_counterexample :
    ¬ estimateTotalDuration
        (List.replicate 25 'ㄱ' ++ ['.', ' '] ++ List.replicate 25 'ㄱ' ++ ['.', ' ', 'ㄴ', '.']) ≤ 9/2 ∧
    splitIntoSentences
        (List.replicate 25 'ㄱ' ++ ['.', ' '] ++ List.replicate 25 'ㄱ' ++ ['.', ' ', 'ㄴ', '.']) =
      [List.replicate 25 'ㄱ' ++ ['.'], List.replicate 25 'ㄱ' ++ ['.'], ['ㄴ', '.']] ∧
    analyzeSyllables (List.replicate 25 'ㄱ' ++ ['.']) + analyzeSyllables ['ㄴ', '.'] ≤
      (9/2) * 0.95 ∧
    ¬ estimateTotalDuration (trimScriptToDuration
        (List.replicate 25 'ㄱ' ++ ['.', ' '] ++ List.replicate 25 'ㄱ' ++ ['.', ' ', 'ㄴ', '.'])
        (9/2)) ≤ 9/2 := by
  refine ⟨?_, ?_, ?_, ?_⟩ <;> decide

theorem insertDescBy_perm {α : Type} (key : α → ℚ) (a : α) (l : List α) :
    (insertDescBy key a l).Perm (a :: l) := by
  induction l with
  | nil => exact List.Perm.refl _
  | cons b rest ih =>
    simp only [insertDescBy]
    split
    · exact List.Perm.refl _
    · exact (ih.cons b).trans (List.Perm.swap a b rest)

theorem sortDescBy_perm {α : Type} (key : α → ℚ) (l : List α) :
    (sortDescBy key l).Perm l := by
  induction l with
  | nil => exact List.Perm.refl _
  | cons a rest ih =>
    exact (insertDescBy_perm key a _).trans (ih.cons a)

theorem greedyAdd_spec (l : List (List Char × ℚ)) :
    ∀ r t sel, r ≤ t →
    ∃ extra : List (List Char × ℚ), extra.Sublist l ∧
      greedyAdd l r t sel = sel ++ extra.map Prod.fst ∧
      r + (extra.map Prod.snd).sum ≤ t := by
  induction l with
  | nil =>
    intro r t sel hr
    exact ⟨[], List.nil_sublist _, by simp [greedyAdd], by simpa using hr⟩
  | cons p rest ih =>
    intro r t sel hr
    obtain ⟨s, d⟩ := p
    by_cases hd : r + d ≤ t
    · obtain ⟨e, he1, he2, he3⟩ := ih (r + d) t (sel ++ [s]) hd
      refine ⟨(s, d) :: e, he1.cons₂ _, ?_, ?_⟩
      · simp only [greedyAdd]
        rw [if_pos hd, he2]
        simp
      · simp only [List.map_cons, List.sum_cons]
        linarith
    · obtain ⟨e, he1, he2, he3⟩ := ih r t sel hr
      refine ⟨e, he1.cons _, ?_, he3⟩
      simp only [greedyAdd]
      rw [if_neg hd]
      exact he2

theorem trimMiddle_map (text : List Char)
    (h : 2 < (splitIntoSentences text).length) :
    trimMiddle (sentenceData text) =
      (((splitIntoSentences text).drop 1).dropLast).map
        (fun s => (s, analyzeSyllables s)) := by
  unfold trimMiddle sentenceData
  rw [if_pos (by simpa using h), ← List.map_drop, ← List.map_dropLast]

/-- C8 (amended): a script whose estimate already fits is returned unchanged;
and when the script has at least 3 sentences, ALL PAIRWISE DISTINCT, whose
first and last estimated durations together fit under `max_duration * 0.95`,
the trimmed result's estimated total duration is at most `max_duration`. -/
theorem c8_trim_budget_amended (script : List Char) (maxd : ℚ) :
    (estimateTotalDuration script ≤ maxd → trimScriptToDuration script maxd = script) ∧
    ((splitIntoSentences script).Nodup →
      3 ≤ (splitIntoSentences script).length →
      (∀ aF aL, (splitIntoSentences script).head? = some aF →
        (splitIntoSentences script).getLast? = some aL →
        analyzeSyllables aF + analyzeSyllables aL ≤ maxd * 0.95) →
      estimateTotalDuration (trimScriptToDuration script maxd) ≤ maxd) := by
  constructor
  · intro hle
    unfold trimScriptToDuration
    rw [if_pos hle]
  · intro hN h3 hfit
    by_cases hle : estimateTotalDuration script ≤ maxd
    · have : trimScriptToDuration script maxd = script := by
        unfold trimScriptToDuration
        rw [if_pos hle]
      rw [this]
      exact hle
    · have hSne : splitIntoSentences script ≠ [] := by
        intro h0; rw [h0] at h3; simp at h3
      obtain ⟨aF, rest, hSc⟩ := List.exists_cons_of_ne_nil hSne
      have hrne : rest ≠ [] := by
        intro h0; rw [hSc, h0] at h3; simp at h3
      obtain ⟨aL, haL⟩ := Option.isSome_iff_exists.1 (List.getLast?_isSome.2 hSne)
      have haF : (splitIntoSentences script).head? = some aF := by rw [hSc]; rfl
      have hfitFL := hfit aF aL haF haL
      have haLrest : rest.getLast? = some aL := by
        rw [hSc] at haL
        obtain ⟨b, hb⟩ := Option.isSome_iff_exists.1 (List.getLast?_isSome.2 hrne)
        have h4 : (aF :: rest).getLast? = rest.getLast? := by
          have h5 : aF :: rest = [aF] ++ rest := rfl
          rw [h5, List.getLast?_append, hb]
          rfl
        rw [← h4, haL]
      obtain ⟨mid, hmid⟩ := List.getLast?_eq_some_iff.1 haLrest
      have hNrest : rest.Nodup := by rw [hSc] at hN; exact hN.of_cons
      have haFnotin : aF ∉ rest := by rw [hSc] at hN; exact (List.nodup_cons.1 hN).1
      have hmidNodup : mid.Nodup := by
        rw [hmid] at hNrest
        exact (List.nodup_append.1 hNrest).1
      have haLnotmid : aL ∉ mid := by
        rw [hmid] at hNrest
        intro hmem
        exact (List.nodup_append.1 hNrest).2.2 hmem (List.mem_singleton.2 rfl)
      have haFneaL : aF ≠ aL := by
        intro h0
        apply haFnotin
        rw [h0, hmid]
        simp
      have hsds_head : (sentenceData script).head? = some (aF, analyzeSyllables aF) := by
        unfold sentenceData
        rw [List.head?_map, haF]
        rfl
      have hlen2 : 1 < (sentenceData script).length := by
        unfold sentenceData
        rw [List.length_map]
        omega
      have hsds_last : trimLast (sentenceData script) = some (aL, analyzeSyllables aL) := by
        unfold trimLast
        rw [if_pos hlen2]
        unfold sentenceData
        rw [List.getLast?_map, haL]
        rfl
      have hstart : trimStartSel (sentenceData script) = ([aF], analyzeSyllables aF) := by
        unfold trimStartSel
        rw [hsds_head]
      have hlastdur : trimLastDur (sentenceData script) = analyzeSyllables aL := by
        unfold trimLastDur
        rw [hsds_last]
      have hmidvals : trimMiddle (sentenceData script) =
          mid.map (fun s => (s, analyzeSyllables s)) := by
        rw [trimMiddle_map script (by omega)]
        congr 1
        rw [hSc]
        simp only [List.drop_one, List.tail_cons]
        rw [hmid, List.dropLast_concat]
      have hperm : (sortDescBy sentenceDensity (trimMiddle (sentenceData script))).Perm
          (mid.map (fun s => (s, analyzeSyllables s))) := by
        rw [hmidvals]
        exact sortDescBy_perm _ _
      obtain ⟨extra, hexsub, hexeq, hexsum⟩ :=
        greedyAdd_spec (sortDescBy sentenceDensity (trimMiddle (sentenceData script)))
          (analyzeSyllables aF + analyzeSyllables aL) (maxd * 0.95) [aF] hfitFL
      have hres_eq : trimRes (sentenceData script) maxd = [aF] ++ extra.map Prod.fst := by
        unfold trimRes
        rw [hstart, hlastdur]
        exact hexeq
      have hextra_pair : ∀ p ∈ extra, p.2 = analyzeSyllables p.1 ∧ p.1 ∈ mid := by
        intro p hp
        have hpm := hperm.mem_iff.1 (hexsub.subset hp)
        rcases List.mem_map.1 hpm with ⟨s, hs, hps⟩
        rw [← hps]
        exact ⟨rfl, hs⟩
      have heV_mid : ∀ x ∈ extra.map Prod.fst, x ∈ mid := by
        intro x hx
        rcases List.mem_map.1 hx with ⟨p, hp, hpx⟩
        rw [← hpx]
        exact (hextra_pair p hp).2
      have heV_nodup : (extra.map Prod.fst).Nodup := by
        refine List.Nodup.sublist (hexsub.map Prod.fst) ?_
        have h6 := (hperm.map Prod.fst).nodup_iff
        apply h6.2
        rw [List.map_map]
        have h7 : mid.map (Prod.fst ∘ fun s => (s, analyzeSyllables s)) = mid := by
          conv_rhs => rw [← List.map_id mid]
          exact List.map_congr_left (fun s _ => rfl)
        rw [h7]
        exact hmidNodup
      have haLnotres : aL ∉ trimRes (sentenceData script) maxd := by
        rw [hres_eq]
        intro hmem
        rcases List.mem_append.1 hmem with hm | hm
        · exact haFneaL (List.mem_singleton.1 hm).symm
        · exact haLnotmid (heV_mid aL hm)
      have hselAll : trimSelectedAll (sentenceData script) maxd =
          ([aF] ++ extra.map Prod.fst) ++ [aL] := by
        unfold trimSelectedAll
        rw [hsds_last]
        show (if (aL, analyzeSyllables aL).1 ∈ trimRes (sentenceData script) maxd
            then trimRes (sentenceData script) maxd
            else trimRes (sentenceData script) maxd ++ [(aL, analyzeSyllables aL).1]) = _
        rw [if_neg haLnotres, hres_eq]
      have hselSub : ∀ x ∈ trimSelectedAll (sentenceData script) maxd,
          x ∈ splitIntoSentences script := by
        intro x hx
        rw [hselAll] at hx
        rcases List.mem_append.1 hx with hm | hm
        · rcases List.mem_append.1 hm with hm2 | hm2
          · rw [List.mem_singleton.1 hm2, hSc]
            exact List.mem_cons_self _ _
          · have := heV_mid x hm2
            rw [hSc, hmid]
            exact List.mem_cons_of_mem _ (List.mem_append_left _ this)
        · rw [List.mem_singleton.1 hm, hSc, hmid]
          exact List.mem_cons_of_mem _ (List.mem_append_right _ (List.mem_singleton.2 rfl))
      have hselNodup : (trimSelectedAll (sentenceData script) maxd).Nodup := by
        rw [hselAll]
        apply List.nodup_append.2
        refine ⟨?_, List.nodup_singleton aL, ?_⟩
        · apply List.nodup_append.2
          refine ⟨List.nodup_singleton aF, heV_nodup, ?_⟩
          intro x hx hx2
          rw [List.mem_singleton.1 hx] at hx2
          exact haFnotin (by rw [hmid]; exact List.mem_append_left _ (heV_mid aF hx2))
        · intro x hx hx2
          rw [List.mem_singleton.1 hx2] at hx
          rcases List.mem_append.1 hx with hm | hm
          · exact haFneaL (List.mem_singleton.1 hm).symm
          · exact haLnotmid (heV_mid aL hm)
      have hkeptNodup : (trimKept script maxd).Nodup :=
        List.Nodup.sublist (trimKept_sublist script maxd) hN
      have hpermKS : (trimKept script maxd).Perm (trimSelectedAll (sentenceData script) maxd) := by
        apply List.perm_of_nodup_nodup_toFinset_eq hkeptNodup hselNodup
        ext x
        simp only [List.mem_toFinset]
        constructor
        · intro hx
          have := (List.mem_filter.1 hx).2
          simpa using this
        · intro hx
          exact List.mem_filter.2 ⟨hselSub x hx, by simpa using hx⟩
      have hsum_sel : ((trimSelectedAll (sentenceData script) maxd).map analyzeSyllables).sum =
          analyzeSyllables aF + (extra.map Prod.snd).sum + analyzeSyllables aL := by
        rw [hselAll]
        simp only [List.map_append, List.sum_append, List.map_cons, List.map_nil,
          List.sum_cons, List.sum_nil]
        have h8 : (extra.map Prod.fst).map analyzeSyllables = extra.map Prod.snd := by
          rw [List.map_map]
          exact List.map_congr_left (fun p hp => (hextra_pair p hp).1.symm)
        rw [h8]
        ring
      have hsplit := trim_split_eq script maxd hle
      have hfinal : estimateTotalDuration (trimScriptToDuration script maxd) =
          analyzeSyllables aF + (extra.map Prod.snd).sum + analyzeSyllables aL := by
        unfold estimateTotalDuration
        rw [hsplit, ← hsum_sel]
        exact ((hpermKS.map analyzeSyllables).sum_eq)
      rw [hfinal]
      have hge1 : (0.7 : ℚ) ≤ analyzeSyllables aF := analyzeSyllables_ge aF
      have hge2 : (0.7 : ℚ) ≤ analyzeSyllables aL := analyzeSyllables_ge aL
      have hmaxd : 0 ≤ maxd := by nlinarith
      nlinarith

/-- C8 witness: a three-distinct-sentence script over budget whose trimmed
result fits (the middle sentence is dropped). -/
theorem c8_trim_budget_amended_witness :
    estimateTotalDuration (trimScriptToDuration
      (List.replicate 25 'ㄱ' ++ ['.', ' ', 'ㄴ', '.', ' ', 'ㄷ', '.']) (9/2)) ≤ 9/2 := by
  apply (c8_trim_budget_amended
    (List.replicate 25 'ㄱ' ++ ['.', ' ', 'ㄴ', '.', ' ', 'ㄷ', '.']) (9/2)).2
    (by decide) (by decide)
  intro aF aL h1 h2
  have hF : (splitIntoSentences
      (List.replicate 25 'ㄱ' ++ ['.', ' ', 'ㄴ', '.', ' ', 'ㄷ', '.'])).head? =
      some (List.replicate 25 'ㄱ' ++ ['.']) := by decide
  have hL : (splitIntoSentences
      (List.replicate 25 'ㄱ' ++ ['.', ' ', 'ㄴ', '.', ' ', 'ㄷ', '.'])).getLast? =
      some ['ㄷ', '.'] := by decide
  have hF2 : aF = List.replicate 25 'ㄱ' ++ ['.'] := (Option.some_inj.1 (hF.symm.trans h1)).symm
  have hL2 : aL = ['ㄷ', '.'] := (Option.some_inj.1 (hL.symm.trans h2)).symm
  rw [hF2, hL2]
  decide

/-! ### Claim C9: doubling the text never decreases the estimate -/

theorem charComplexity_nonneg (c : Char) : 0 ≤ charComplexity c := by
  unfold charComplexity
  split
  · unfold analyzeKoreanChar
    split
    · norm_num
    · dsimp only
      split_ifs <;> norm_num
  · exact le_refl 0

theorem charComplexity_le (c : Char) : charComplexity c ≤ 1.5 := by
  unfold charComplexity
  split
  · unfold analyzeKoreanChar
    split
    · norm_num
    · dsimp only
      split_ifs <;> norm_num
  · norm_num

theorem pause_eq_sum (l : List Char) :
    analyzerPause l = (l.map pauseWeight).sum := by
  induction l with
  | nil => simp [analyzerPause]
  | cons c rest ih =>
    have expand : analyzerPause (c :: rest) = analyzerPause rest + pauseWeight c := by
      unfold analyzerPause pauseWeight
      simp only [List.count_cons, beq_iff_eq]
      push_cast
      by_cases h1 : c = ','
      · subst h1; simp; ring
      · by_cases h2 : c = '.'
        · subst h2; simp; ring
        · by_cases h3 : c = '!'
          · subst h3; simp; ring
          · by_cases h4 : c = '?'
            · subst h4; simp; ring
            · by_cases h5 : c = ';'
              · subst h5; simp; ring
              · by_cases h6 : c = ':'
                · subst h6; simp; ring
                · simp only [if_neg h1, if_neg h2, if_neg h3, if_neg h4, if_neg h5,
                    if_neg h6]
                  push_cast
                  ring
    rw [List.map_cons, List.sum_cons, expand, ih]
    ring

theorem countP_cast_sum (p : Char → Bool) (l : List Char) :
    ((l.countP p : ℕ) : ℚ) = (l.map (fun c => if p c then (1 : ℚ) else 0)).sum := by
  induction l with
  | nil => simp
  | cons c rest ih =>
    rw [List.countP_cons, List.map_cons, List.sum_cons]
    by_cases h : p c
    · rw [if_pos h, if_pos h]
      push_cast
      rw [ih]
      ring
    · rw [if_neg (by simp [h]), if_neg h]
      push_cast
      rw [ih]
      ring

theorem sum_map_add_q (l : List Char) (f g : Char → ℚ) :
    (l.map (fun c => f c + g c)).sum = (l.map f).sum + (l.map g).sum := by
  induction l with
  | nil => simp
  | cons a r ih => simp [ih]; ring

theorem sum_map_smul_q (l : List Char) (b : ℚ) (f : Char → ℚ) :
    (l.map (fun c => b * f c)).sum = b * (l.map f).sum := by
  induction l with
  | nil => simp
  | cons a r ih => simp [ih]; ring

theorem perChar_bound (c : Char) :
    pauseWeight c + (3/130) * charComplexity c +
      (3/130) * (if isAsciiDigit c then (1 : ℚ) else 0) +
      (1/65) * (if isLatinLetter c then (1 : ℚ) else 0) ≤ 0.15 := by
  by_cases h1 : c = ','
  · subst h1; decide
  · by_cases h2 : c = '.'
    · subst h2; decide
    · by_cases h3 : c = '!'
      · subst h3; decide
      · by_cases h4 : c = '?'
        · subst h4; decide
        · by_cases h5 : c = ';'
          · subst h5; decide
          · by_cases h6 : c = ':'
            · subst h6; decide
            · have hp : pauseWeight c = 0 := by
                simp [pauseWeight, h1, h2, h3, h4, h5, h6]
              rw [hp]
              have hg1 := charComplexity_nonneg c
              have hg2 := charComplexity_le c
              have hd : (if isAsciiDigit c then (1 : ℚ) else 0) ≤ 1 := by
                split <;> norm_num
              have hd0 : (0 : ℚ) ≤ (if isAsciiDigit c then (1 : ℚ) else 0) := by
                split <;> norm_num
              have hl : (if isLatinLetter c then (1 : ℚ) else 0) ≤ 1 := by
                split <;> norm_num
              have hl0 : (0 : ℚ) ≤ (if isLatinLetter c then (1 : ℚ) else 0) := by
                split <;> norm_num
              linarith

theorem sum_perChar_le (tws : List Char) :
    (tws.map pauseWeight).sum + (3/130) * (tws.map charComplexity).sum +
      (3/130) * ((tws.countP isAsciiDigit : ℕ) : ℚ) +
      (1/65) * ((tws.countP isLatinLetter : ℕ) : ℚ) ≤ 0.15 * tws.length := by
  rw [countP_cast_sum, countP_cast_sum, ← sum_map_smul_q, ← sum_map_smul_q,
    ← sum_map_smul_q, ← sum_map_add_q, ← sum_map_add_q, ← sum_map_add_q]
  have h1 : ((tws.map (fun c => pauseWeight c + (3/130) * charComplexity c +
      (3/130) * (if isAsciiDigit c then (1 : ℚ) else 0) +
      (1/65) * (if isLatinLetter c then (1 : ℚ) else 0))).sum) ≤
      ((tws.map (fun _ => (0.15 : ℚ))).sum) :=
    List.sum_le_sum (fun c _ => perChar_bound c)
  have h2 : (tws.map (fun _ => (0.15 : ℚ))).sum = 0.15 * tws.length := by
    rw [show (fun _ => (0.15:ℚ)) = Function.const Char (0.15:ℚ) from rfl, List.map_const,
      List.sum_replicate, nsmul_eq_mul]
    ring
  calc (tws.map (fun c => pauseWeight c + (3/130) * charComplexity c +
      (3/130) * (if isAsciiDigit c then (1 : ℚ) else 0) +
      (1/65) * (if isLatinLetter c then (1 : ℚ) else 0))).sum
      ≤ (tws.map (fun _ => (0.15 : ℚ))).sum := h1
    _ = 0.15 * tws.length := h2

theorem analyzerD3_eq (text : List Char) (h : twsOf text ≠ []) :
    analyzerD3 text = ((twsOf text).length : ℚ) / 6.5 +
      ((3/130) * ((twsOf text).map charComplexity).sum + analyzerPause text +
        (3/130) * (((twsOf text).countP isAsciiDigit : ℕ) : ℚ) +
        (1/65) * (((twsOf text).countP isLatinLetter : ℕ) : ℚ)) := by
  have hn : 0 < (twsOf text).length := List.length_pos.2 h
  have hm : ((max 1 (twsOf text).length : ℕ) : ℚ) = ((twsOf text).length : ℚ) := by
    rw [Nat.max_eq_right hn]
  have hq : ((twsOf text).length : ℚ) ≠ 0 := by
    exact_mod_cast Nat.pos_iff_ne_zero.1 hn
  unfold analyzerD3
  rw [hm]
  field_simp
  ring

theorem q01 : (0.1 : ℚ) = 1/10 := by norm_num

theorem q015 : (0.15 : ℚ) = 3/20 := by norm_num

theorem q065 : (6.5 : ℚ) = 13/2 := by norm_num

theorem q085 : (0.85 : ℚ) = 17/20 := by norm_num

theorem q095 : (0.95 : ℚ) = 19/20 := by norm_num

theorem q098 : (0.98 : ℚ) = 49/50 := by norm_num

theorem q002 : (0.02 : ℚ) = 1/50 := by norm_num

theorem q07 : (0.7 : ℚ) = 7/10 := by norm_num

theorem analyzerPause_tws (text : List Char) :
    analyzerPause (twsOf text) = analyzerPause text := by
  unfold analyzerPause twsOf
  have h1 : List.count ',' (List.filter (fun c => decide (c ≠ ' ')) text) =
      List.count ',' text := List.count_filter (by decide)
  have h2 : List.count '.' (List.filter (fun c => decide (c ≠ ' ')) text) =
      List.count '.' text := List.count_filter (by decide)
  have h3 : List.count '!' (List.filter (fun c => decide (c ≠ ' ')) text) =
      List.count '!' text := List.count_filter (by decide)
  have h4 : List.count '?' (List.filter (fun c => decide (c ≠ ' ')) text) =
      List.count '?' text := List.count_filter (by decide)
  have h5 : List.count ';' (List.filter (fun c => decide (c ≠ ' ')) text) =
      List.count ';' text := List.count_filter (by decide)
  have h6 : List.count ':' (List.filter (fun c => decide (c ≠ ' ')) text) =
      List.count ':' text := List.count_filter (by decide)
  rw [h1, h2, h3, h4, h5, h6]

theorem analyzerD3_le (text : List Char) (h : twsOf text ≠ []) :
    analyzerD3 text ≤ ((twsOf text).length : ℚ) * (79/260) := by
  rw [analyzerD3_eq text h]
  have hb := sum_perChar_le (twsOf text)
  rw [← analyzerPause_tws text, pause_eq_sum (twsOf text)]
  have : ((twsOf text).map pauseWeight).sum +
      (3/130) * ((twsOf text).map charComplexity).sum +
      (3/130) * (((twsOf text).countP isAsciiDigit : ℕ) : ℚ) +
      (1/65) * (((twsOf text).countP isLatinLetter : ℕ) : ℚ) ≤
      0.15 * (twsOf text).length := hb
  have hn0 : (0:ℚ) ≤ ((twsOf text).length : ℚ) := Nat.cast_nonneg _
  rw [q065] at *
  rw [q015] at this
  linarith

theorem analyzerD3_nonneg (text : List Char) : 0 ≤ analyzerD3 text := by
  unfold analyzerD3
  have hC : 0 ≤ ((twsOf text).map charComplexity).sum := by
    apply List.sum_nonneg
    intro x hx
    rcases List.mem_map.1 hx with ⟨c, _, rfl⟩
    exact charComplexity_nonneg c
  have hP : 0 ≤ analyzerPause text := by
    unfold analyzerPause
    positivity
  have hm0 : (0:ℚ) ≤ ((max 1 (twsOf text).length : ℕ) : ℚ) := Nat.cast_nonneg _
  have hn0 : (0:ℚ) ≤ ((twsOf text).length : ℚ) := Nat.cast_nonneg _
  have hd0 : (0:ℚ) ≤ (((twsOf text).countP isAsciiDigit : ℕ) : ℚ) := Nat.cast_nonneg _
  have hl0 : (0:ℚ) ≤ (((twsOf text).countP isLatinLetter : ℕ) : ℚ) := Nat.cast_nonneg _
  have hCm : 0 ≤ ((twsOf text).map charComplexity).sum /
      ((max 1 (twsOf text).length : ℕ) : ℚ) := div_nonneg hC hm0
  have h1 : 0 ≤ (((twsOf text).length : ℚ) / 6.5) *
      (1 + ((twsOf text).map charComplexity).sum /
        ((max 1 (twsOf text).length : ℕ) : ℚ) * 0.15) := by
    apply mul_nonneg (by positivity)
    nlinarith
  have h2 : 0 ≤ (((twsOf text).countP isAsciiDigit : ℕ) : ℚ) /
      ((max 1 (twsOf text).length : ℕ) : ℚ) * (((twsOf text).length : ℚ) / 6.5) * 0.15 := by
    positivity
  have h3 : 0 ≤ (((twsOf text).countP isLatinLetter : ℕ) : ℚ) /
      ((max 1 (twsOf text).length : ℕ) : ℚ) * (((twsOf text).length : ℚ) / 6.5) * 0.1 := by
    positivity
  linarith

theorem twsOf_append (t : List Char) : twsOf (t ++ t) = twsOf t ++ twsOf t := by
  unfold twsOf
  exact List.filter_append _ _

theorem analyzerPause_append (t : List Char) :
    analyzerPause (t ++ t) = 2 * analyzerPause t := by
  unfold analyzerPause
  simp only [List.count_append]
  push_cast
  ring

theorem analyzerD3_double (t : List Char) (h : twsOf t ≠ []) :
    analyzerD3 (t ++ t) = 2 * analyzerD3 t := by
  have h2 : twsOf (t ++ t) ≠ [] := by
    rw [twsOf_append]
    intro h0
    exact h (List.append_eq_nil.1 h0).1
  rw [analyzerD3_eq _ h2, analyzerD3_eq _ h, twsOf_append, analyzerPause_append]
  simp only [List.length_append, List.map_append, List.sum_append, List.countP_append]
  push_cast
  ring

theorem spaceFactor_eq (text : List Char) : spaceFactor text = 0.95 := by
  unfold spaceFactor
  apply min_eq_left
  have hm1 : (1 : ℕ) ≤ max 1 text.length := Nat.le_max_left 1 _
  have h2 : (0:ℚ) < ((max 1 text.length : ℕ) : ℚ) := by
    exact_mod_cast lt_of_lt_of_le zero_lt_one hm1
  have h1 : (text.count ' ' : ℚ) ≤ ((max 1 text.length : ℕ) : ℚ) := by
    exact_mod_cast le_trans (List.count_le_length _ _) (Nat.le_max_right 1 _)
  have h3 : (text.count ' ' : ℚ) / ((max 1 text.length : ℕ) : ℚ) ≤ 1 :=
    (div_le_one h2).2 h1
  have h30 : 0 ≤ (text.count ' ' : ℚ) / ((max 1 text.length : ℕ) : ℚ) :=
    div_nonneg (Nat.cast_nonneg _) (le_of_lt h2)
  nlinarith

theorem analyzerD4_double (t : List Char) (h : twsOf t ≠ []) :
    analyzerD4 (t ++ t) = 2 * analyzerD4 t := by
  unfold analyzerD4
  rw [List.count_append]
  by_cases hs : t.count ' ' > 0
  · rw [if_pos (by omega), if_pos hs, analyzerD3_double t h, spaceFactor_eq, spaceFactor_eq]
    ring
  · rw [if_neg (by omega), if_neg hs, analyzerD3_double t h]

theorem analyzerD4_nonneg (t : List Char) : 0 ≤ analyzerD4 t := by
  unfold analyzerD4
  split
  · rw [spaceFactor_eq]
    have := analyzerD3_nonneg t
    nlinarith
  · exact analyzerD3_nonneg t

theorem analyzerD4_le_D3 (t : List Char) : analyzerD4 t ≤ analyzerD3 t := by
  unfold analyzerD4
  split
  · rw [spaceFactor_eq]
    have := analyzerD3_nonneg t
    nlinarith
  · exact le_refl _

/-- C9: for any text whose non-space character count is at most 15 (so the
text itself sits below the ceiling-clamp threshold of `_analyze_syllables`),
doubling the text never decreases the estimated duration. -/
theorem c9_doubling_monotone (t : List Char) (hn : (twsOf t).length ≤ 15) :
    analyzeSyllables t ≤ analyzeSyllables (t ++ t) := by
  by_cases hempty : t = [] ∨ strip t = []
  · have h2 : (t ++ t) = [] ∨ strip (t ++ t) = [] := by
      rcases hempty with h | h
      · subst h; exact Or.inl rfl
      · right
        apply strip_nil_iff.2
        intro c hc
        rcases List.mem_append.1 hc with hm | hm <;> exact strip_nil_iff.1 h c hm
    unfold analyzeSyllables
    rw [if_pos hempty, if_pos h2]
  · push_neg at hempty
    have hu : ¬(t ++ t = [] ∨ strip (t ++ t) = []) := by
      push_neg
      refine ⟨by simp [hempty.1], ?_⟩
      intro h0
      apply hempty.2
      apply strip_nil_iff.2
      intro c hc
      exact strip_nil_iff.1 h0 c (List.mem_append_left _ hc)
    have htws : twsOf t ≠ [] := by
      have hex : ∃ c ∈ t, isWsB c = false := by
        by_contra hno
        push_neg at hno
        apply hempty.2
        apply strip_nil_iff.2
        intro c hc
        cases hw : isWsB c
        · exact absurd hw (hno c hc)
        · rfl
      rcases hex with ⟨c, hc, hcw⟩
      have hcsp : c ≠ ' ' := by
        intro h0
        rw [h0] at hcw
        simp [isWsB] at hcw
      exact List.ne_nil_of_mem (List.mem_filter.2 ⟨hc, by simpa using hcsp⟩)
    unfold analyzeSyllables
    rw [if_neg (by push_neg; exact hempty), if_neg hu]
    apply max_le_max (le_refl (0.7 : ℚ))
    -- core: analyzerD6 t ≤ analyzerD6 (t ++ t)
    have hn1 : 1 ≤ (twsOf t).length := List.length_pos.2 htws
    have hlen2 : (twsOf (t ++ t)).length = 2 * (twsOf t).length := by
      rw [twsOf_append, List.length_append]
      omega
    have hD4d := analyzerD4_double t htws
    have hD40 := analyzerD4_nonneg t
    -- characterize the two tier results
    have hD5t : analyzerD5 t =
        if (twsOf t).length > 10 then analyzerD4 t * 0.85 else analyzerD4 t := by
      unfold analyzerD5
      by_cases h10 : (twsOf t).length > 10
      · rw [if_pos h10, if_pos h10]
      · rw [if_neg h10, if_neg h10, if_neg (by omega), if_neg (by omega)]
    have hD5u : analyzerD5 (t ++ t) =
        if (twsOf t).length > 5 then 2 * analyzerD4 t * 0.85 else 2 * analyzerD4 t := by
      unfold analyzerD5
      rw [hlen2, hD4d]
      by_cases h5 : (twsOf t).length > 5
      · rw [if_pos (by omega), if_pos h5]
      · rw [if_neg (by omega), if_neg (by omega), if_neg (by omega), if_neg h5]
    have hD5le : analyzerD5 t ≤ analyzerD5 (t ++ t) := by
      rw [hD5t, hD5u]
      by_cases h10 : (twsOf t).length > 10
      · rw [if_pos h10, if_pos (by omega)]
        nlinarith
      · by_cases h5 : (twsOf t).length > 5
        · rw [if_neg h10, if_pos h5]
          nlinarith
        · rw [if_neg h10, if_neg h5]
          nlinarith
    -- bound on the t side used when the doubled text is clamped
    have hD5t_le : analyzerD5 t ≤ ((twsOf t).length : ℚ) * (79/260) *
        (if (twsOf t).length > 10 then (0.85 : ℚ) else 1) := by
      rw [hD5t]
      have hb := le_trans (analyzerD4_le_D3 t) (analyzerD3_le t htws)
      by_cases h10 : (twsOf t).length > 10
      · rw [if_pos h10, if_pos h10]
        nlinarith
      · rw [if_neg h10, if_neg h10]
        nlinarith [show (0:ℚ) ≤ ((twsOf t).length : ℚ) from Nat.cast_nonneg _]
    have hD6t : analyzerD6 t = analyzerD5 t := by
      unfold analyzerD6
      rw [if_neg ?_]
      rintro ⟨_, h15⟩
      omega
    rw [hD6t]
    unfold analyzerD6
    by_cases hclamp : analyzerD5 (t ++ t) > 3 ∧ (twsOf (t ++ t)).length > 15
    · rw [if_pos hclamp]
      apply le_min hD5le
      -- analyzerD5 t ≤ 3 + (2n - 15) * 0.1
      have h8 : 8 ≤ (twsOf t).length := by
        have := hclamp.2
        omega
      have hnq : ((twsOf t).length : ℚ) ≤ 15 := by exact_mod_cast hn
      have hnq8 : (8 : ℚ) ≤ ((twsOf t).length : ℚ) := by exact_mod_cast h8
      have hcast : (((twsOf (t ++ t)).length : ℕ) : ℚ) = 2 * ((twsOf t).length : ℚ) := by
        rw [hlen2]
        push_cast
        ring
      rw [hcast]
      by_cases h10 : (twsOf t).length > 10
      · rw [if_pos h10] at hD5t_le
        nlinarith
      · rw [if_neg h10] at hD5t_le
        have hnq10 : ((twsOf t).length : ℚ) ≤ 10 := by exact_mod_cast Nat.not_lt.1 h10
        nlinarith
    · rw [if_neg hclamp]
      exact hD5le

/-- C9 witness at a one-syllable text. -/
theorem c9_doubling_monotone_witness :
    analyzeSyllables ['가'] ≤ analyzeSyllables (['가'] ++ ['가']) :=
  c9_doubling_monotone ['가'] (by decide)

end ShortsTTS
